import Mathlib

/-!
# Vertex sequences of `sheep` (`lib/sequence.h`)

A shallow embedding of the sequence constructors and of the sequence I/O of
`lib/sequence.h`, followed by the properties proved about them.

Conventions of the embedding.

* `vid_t` and `esize_t` are unsigned machine integers (`defs.h` fixes their
  widths).  They are natural numbers here; `w` is the bit width of `vid_t`,
  `we` the bit width of `esize_t`, and every operation that can wrap carries an
  explicit `% 2 ^ w`.
* `std::vector<T>` is a `List`.  A function returns `none` when the program
  does not return a value: an access `v[i]` with `i` outside the vector
  (undefined behaviour), an MPI call with an invalid count (the run is
  aborted), or a vector larger than `max_size()` (`std::length_error`, not
  caught).  Below `max_size()` memory is unbounded: `std::bad_alloc` is not
  modelled.
* The graph, the edge readers and the MPI collectives are collaborators that
  are not part of the file; they are parameters (`Graph`, a reader function)
  or are modelled by their contract (`MPI_Allreduce_MAX`, `MPI_Allreduce_SUM`,
  `parallelSort`).
* A file is the list of its bytes (binary) or characters (text).
-/

namespace Sheep

/-! ## Collaborators -/

/-- The graph collaborator, reduced to what `sequence.h` asks of it:
`getNodeItr` (the vertex ids in iteration order), `getDeg` and `getMaxVid`. -/
structure Graph where
  /-- The ids produced by `getNodeItr()`, in iteration order. -/
  nodes : List Nat
  /-- The degree lookup `getDeg(v)`. -/
  getDeg : Nat → Nat
  /-- The largest vertex id known locally, `getMaxVid()`. -/
  getMaxVid : Nat

/-- The comparator lambda shared by the three sorts of `sequence.h`:
`if (deg(lhs) != deg(rhs)) return deg(lhs) < deg(rhs); else return lhs < rhs;`. -/
def degreeLess (deg : Nat → Nat) (lhs rhs : Nat) : Bool :=
  if deg lhs ≠ deg rhs then decide (deg lhs < deg rhs) else decide (lhs < rhs)

/-- The contract of `__gnu_parallel::sort(first, last, comp)`: the range is
rearranged so that no later element compares less than an earlier one.
Insertion sort over the relation "not `comp b a`" computes that arrangement. -/
def parallelSort (comp : Nat → Nat → Bool) (seq : List Nat) : List Nat :=
  seq.insertionSort (fun a b => comp b a = false)

/-- The contract of `MPI_Allreduce(..., 1, MPI_vid_t, MPI_MAX, ...)`: every
rank receives the maximum of the values contributed by all ranks. -/
def MPI_Allreduce_MAX (contributions : List Nat) : Nat :=
  contributions.foldl max 0

/-- The contract of `MPI_Allreduce(send, recv, count, MPI_esize_t, MPI_SUM, ...)`:
the first `count` slots of the receive buffer get the element-wise sum (in
`we`-bit unsigned arithmetic) of the send buffers of all ranks, the other
slots of the receive buffer are left as they were.  A buffer shorter than
`count` is an out-of-bounds access. -/
def MPI_Allreduce_SUM (we count : Nat) (sendbufs : List (List Nat)) (recvbuf : List Nat) :
    Option (List Nat) :=
  if count ≤ recvbuf.length ∧ sendbufs.all (fun b => decide (count ≤ b.length)) = true then
    some ((List.range recvbuf.length).map (fun i =>
      if i < count then (sendbufs.map (fun b => b.getD i 0)).sum % 2 ^ we
      else recvbuf.getD i 0))
  else none

/-! ## Sequence constructors -/

/-- `defaultSequence`: push every id of the node iterator, in iteration order. -/
def defaultSequence (graph : Graph) : List Nat :=
  graph.nodes.foldl (fun seq v => seq ++ [v]) []

/-- `degreeSequence`: the default sequence, sorted with the degree comparator
over `graph.getDeg`. -/
def degreeSequence (graph : Graph) : List Nat :=
  parallelSort (degreeLess graph.getDeg) (defaultSequence graph)

/-- The loop `local_degree[*nitr] = graph.getDeg(*nitr)` of `mpiSequence`; the
stored value is an `esize_t`.  A write outside the vector gives `none`. -/
def fillLocalDegree (we : Nat) (graph : Graph) (local_degree : List Nat) : Option (List Nat) :=
  graph.nodes.foldlM
    (fun ld v => if v < ld.length then some (ld.set v (graph.getDeg v % 2 ^ we)) else none)
    local_degree

/-- The extraction loop `for (X = 0; X != n; ++X) if (degree[X] != 0) seq.push_back(X)`. -/
def nonzeroIndices (n : Nat) (degree : List Nat) : List Nat :=
  (List.range n).filter (fun X => degree.getD X 0 != 0)

/-- The conversion of a `vid_t` value to the `int count` parameter of
`MPI_Allreduce` (`int` has 32 bits): the low 32 bits, read as a signed
number. -/
def intOfVid (x : Nat) : Int :=
  if x % 2 ^ 32 < 2 ^ 31 then ((x % 2 ^ 32 : Nat) : Int)
  else ((x % 2 ^ 32 : Nat) : Int) - 2 ^ 32

/-- `mpiSequence` as run by rank `rank` of the ranks holding `graphs`.  The two
collectives receive the contribution of every rank; everything else is local.
The count of the sum-reduction is `max_vid` converted to `int`; a negative
count is an MPI error, which aborts the run (no sequence is returned). -/
def mpiSequence (w we : Nat) (graphs : List Graph) (rank : Nat) : Option (List Nat) :=
  match graphs.get? rank with
  | none => none
  | some _ =>
    let max_vid := MPI_Allreduce_MAX (graphs.map (fun g => g.getMaxVid))
    let size := (max_vid + 1) % 2 ^ w
    let degree := List.replicate size 0
    match graphs.mapM (fun g => fillLocalDegree we g (List.replicate size 0)) with
    | none => none
    | some sendbufs =>
      let count := intOfVid max_vid
      if count < 0 then none
      else
        match MPI_Allreduce_SUM we count.toNat sendbufs degree with
        | none => none
        | some degree =>
          let seq := nonzeroIndices size degree
          some (parallelSort (degreeLess (fun v => degree.getD v 0)) seq)

/-- The growth step of `fileSequence_template`:
`required_size = std::max(X,Y) + 1` in `vid_t` arithmetic, then
`if (degree.size() < required_size) degree.resize(required_size, 0)`. -/
def growDegree (w : Nat) (degree : List Nat) (X Y : Nat) : List Nat :=
  let required_size := (max X Y + 1) % 2 ^ w
  if degree.length < required_size then
    degree ++ List.replicate (required_size - degree.length) 0
  else degree

/-- The statement `degree[X] += 1` on a vector of `vid_t`. -/
def incrDegree (w : Nat) (degree : List Nat) (X : Nat) : Option (List Nat) :=
  if X < degree.length then some (degree.set X ((degree.getD X 0 + 1) % 2 ^ w)) else none

/-- One iteration of the `while (reader.read(X,Y))` loop. -/
def recordEdge (w : Nat) (degree : List Nat) (e : Nat × Nat) : Option (List Nat) :=
  match incrDegree w (growDegree w degree e.1 e.2) e.1 with
  | none => none
  | some degree1 => incrDegree w degree1 e.2

/-- The whole `while` loop over the edges that the reader delivers, from the
empty degree vector. -/
def scanEdges (w : Nat) (edges : List (Nat × Nat)) : Option (List Nat) :=
  edges.foldlM (recordEdge w) []

/-- `fileSequence_template<ReaderType>`; the reader maps the file name to the
edges that its `read` delivers before it reports exhaustion. -/
def fileSequence_template (w : Nat) (reader : List Char → List (Nat × Nat))
    (filename : List Char) : Option (List Nat) :=
  match scanEdges w (reader filename) with
  | none => none
  | some degree =>
    let seq := nonzeroIndices degree.length degree
    some (parallelSort (degreeLess (fun v => degree.getD v 0)) seq)

/-- The two reader types that `fileSequence` chooses between. -/
inductive ReaderType where
  | XS1Reader
  | SNAPReader
  deriving DecidableEq

/-- `strcmp` on strings without their terminator: zero exactly for equal
strings, otherwise the sign of the lexicographic comparison. -/
def strcmp (a b : List Char) : Int :=
  if a = b then 0 else if a < b then -1 else 1

/-- The condition of `fileSequence`:
`strcmp(".dat", filename + strlen(filename) - 4) == 0`.  For a name of fewer
than four characters the pointer lies before the string, which is undefined
behaviour. -/
def selectReader (filename : List Char) : Option ReaderType :=
  if filename.length < 4 then none
  else if strcmp ['.', 'd', 'a', 't'] (filename.drop (filename.length - 4)) = 0 then
    some ReaderType.XS1Reader
  else some ReaderType.SNAPReader

/-- `fileSequence`: dispatch on the suffix, then scan with the chosen reader. -/
def fileSequence (w : Nat) (xs1 snap : List Char → List (Nat × Nat))
    (filename : List Char) : Option (List Nat) :=
  match selectReader filename with
  | none => none
  | some ReaderType.XS1Reader => fileSequence_template w xs1 filename
  | some ReaderType.SNAPReader => fileSequence_template w snap filename

/-! ## Sequence I/O -/

/-- The `n` bytes of the unsigned integer `x`, least significant byte first. -/
def toBytesLE : Nat → Nat → List Nat
  | 0, _ => []
  | n + 1, x => x % 256 :: toBytesLE n (x / 256)

/-- The unsigned integer whose bytes, least significant first, are given. -/
def fromBytesLE : List Nat → Nat
  | [] => 0
  | b :: bs => b + 256 * fromBytesLE bs

/-- The memory image of an `n`-byte unsigned integer in the native byte order
(`bigEndian` tells which one the machine has). -/
def objectBytes (bigEndian : Bool) (n x : Nat) : List Nat :=
  if bigEndian then (toBytesLE n x).reverse else toBytesLE n x

/-- The value of an unsigned integer object with the given memory image. -/
def objectValue (bigEndian : Bool) (bytes : List Nat) : Nat :=
  fromBytesLE (if bigEndian then bytes.reverse else bytes)

/-- `sizeof(size_t)` on the 64-bit targets of the program. -/
def sizeof_size_t : Nat := 8

/-- `istream::read(dst, n)`: the bytes available, at most `n`, overwrite the
start of `dst`; the result is the new `dst` and what is left of the stream.
(After a short read the stream is exhausted, so later reads copy nothing.) -/
def streamRead (n : Nat) (dst stream : List Nat) : List Nat × List Nat :=
  let got := stream.take n
  (got ++ dst.drop got.length, stream.drop n)

/-- The `count` elements of a `std::vector<vid_t>` whose storage holds `mem`;
`vb` is `sizeof(vid_t)`. -/
def vectorOfBytes (bigEndian : Bool) (vb : Nat) : Nat → List Nat → List Nat
  | 0, _ => []
  | count + 1, mem =>
    objectValue bigEndian (mem.take vb) :: vectorOfBytes bigEndian vb count (mem.drop vb)

/-- The storage of a `std::vector<vid_t>`: its elements back to back. -/
def bytesOfVector (bigEndian : Bool) (vb : Nat) (seq : List Nat) : List Nat :=
  seq.flatMap (objectBytes bigEndian vb)

/-- `writeBinarySequence`: the contents of the (truncated) file after the two
`stream.write` calls; `vb` is `sizeof(vid_t)`. -/
def writeBinarySequence (bigEndian : Bool) (vb : Nat) (seq : List Nat) : List Nat :=
  let size := seq.length % 2 ^ (8 * sizeof_size_t)
  objectBytes bigEndian sizeof_size_t size
    ++ (bytesOfVector bigEndian vb seq).take ((seq.length * vb) % 2 ^ (8 * sizeof_size_t))

/-- `std::vector<vid_t>::max_size()`: `PTRDIFF_MAX / sizeof(vid_t)` on the
64-bit targets of the program. -/
def vectorMaxSize (vb : Nat) : Nat := (2 ^ 63 - 1) / vb

/-- `readBinarySequence` on a file with the given bytes.  The constructor
`std::vector<vid_t> seq(size)` throws `std::length_error` when the count read
from the file exceeds `max_size()`; the exception is not caught, so nothing is
returned (`none`). -/
def readBinarySequence (bigEndian : Bool) (vb : Nat) (file : List Nat) : Option (List Nat) :=
  let r1 := streamRead sizeof_size_t (objectBytes bigEndian sizeof_size_t 0) file
  let size := objectValue bigEndian r1.1
  if vectorMaxSize vb < size then none
  else
    let seq := List.replicate size 0
    let r2 :=
      streamRead ((size * vb) % 2 ^ (8 * sizeof_size_t)) (bytesOfVector bigEndian vb seq) r1.2
    some (vectorOfBytes bigEndian vb size r2.1)

/-- The character of the decimal digit `d`. -/
def digitChar (d : Nat) : Char := Char.ofNat (48 + d)

/-- The digits of `n`, most significant first, by repeated division. -/
def decimalFuel : Nat → Nat → List Char
  | 0, _ => []
  | fuel + 1, n =>
    if n < 10 then [digitChar n] else decimalFuel fuel (n / 10) ++ [digitChar (n % 10)]

/-- What `stream << X` writes for an unsigned `X`: its decimal digits, no sign,
no padding. -/
def decimal (n : Nat) : List Char := decimalFuel (n + 1) n

/-- `writeTextSequence`: for every element `stream << X << std::endl`. -/
def writeTextSequence (seq : List Nat) : List Char :=
  seq.flatMap (fun X => decimal X ++ ['\n'])

/-- The characters that `std::isspace` accepts in the classic locale. -/
def isSpace (c : Char) : Bool :=
  c = ' ' || c = '\t' || c = '\n' || c = '\r' || c = Char.ofNat 11 || c = Char.ofNat 12

/-- One formatted extraction `stream >> X` into an unsigned `w`-bit integer:
skip white space, accept an optional sign, take the longest run of decimal
digits, fail when there is none or when the number does not fit.  On success
the result is the value and what is left of the stream. -/
def extractUnsigned (w : Nat) (stream : List Char) : Option (Nat × List Char) :=
  let s := stream.dropWhile isSpace
  let negative : Bool := decide (s.head? = some '-')
  let body := if s.head? = some '-' ∨ s.head? = some '+' then s.tail else s
  let digits := body.takeWhile Char.isDigit
  let rest := body.dropWhile Char.isDigit
  if digits = [] then none
  else
    let v := digits.foldl (fun acc c => 10 * acc + (c.toNat - 48)) 0
    if v < 2 ^ w then some (if negative then (2 ^ w - v) % 2 ^ w else v, rest) else none

/-- The loop `while (stream >> X) seq.push_back(X)`, with a bound on the number
of iterations. -/
def readTextLoop (w : Nat) : Nat → List Char → List Nat
  | 0, _ => []
  | fuel + 1, stream =>
    match extractUnsigned w stream with
    | none => []
    | some (X, rest) => X :: readTextLoop w fuel rest

/-- `readTextSequence` on a file with the given characters.  Every successful
extraction consumes a character, so the length of the file bounds the loop. -/
def readTextSequence (w : Nat) (file : List Char) : List Nat :=
  readTextLoop w file.length file

/-! ## Tables used in the statements -/

/-- The dense local degree array that a rank sends to the sum-reduction, as a
table: the degree of every id the rank enumerates, zero elsewhere. -/
def localDegreeArray (we size : Nat) (p : Graph) : List Nat :=
  (List.range size).map (fun i => if i ∈ p.nodes then p.getDeg i % 2 ^ we else 0)

/-- The degree array after the sum-reduction of `mpiSequence`, as a table: the
reduction covers the first `max_vid` slots, the slot `max_vid` keeps the zero
it was created with. -/
def reducedDegree (we max_vid : Nat) (graphs : List Graph) : List Nat :=
  (List.range (max_vid + 1)).map (fun i =>
    if i < max_vid then
      (graphs.map (fun p => (localDegreeArray we (max_vid + 1) p).getD i 0)).sum % 2 ^ we
    else 0)

/-- The number of edge endpoints equal to `v`: the occurrences of `v` as `X`
plus its occurrences as `Y`. -/
def endpointCount (v : Nat) (edges : List (Nat × Nat)) : Nat :=
  (edges.map (fun e => (if e.1 = v then 1 else 0) + (if e.2 = v then 1 else 0))).sum

/-- The length that the growth steps ask for over a whole edge list: the
largest `max(X,Y) + 1`, zero for no edge. -/
def requiredLength (edges : List (Nat × Nat)) : Nat :=
  (edges.map (fun e => max e.1 e.2 + 1)).foldr max 0

/-- The largest vertex id seen in any edge, zero for no edge. -/
def largestEndpoint (edges : List (Nat × Nat)) : Nat :=
  (edges.map (fun e => max e.1 e.2)).foldr max 0

/-- The order of a degree-sorted sequence on an adjacent pair `(a, b)`:
`degree(a) < degree(b)`, or `degree(a) = degree(b)` and `a < b`. -/
def DegreeOrdered (deg : Nat → Nat) (a b : Nat) : Prop :=
  deg a < deg b ∨ (deg a = deg b ∧ a < b)

/-- The lines of a text: every newline ends a line; characters after the last
newline form a last, unterminated line. -/
def textLines (text : List Char) : List (List Char) :=
  text.foldr
    (fun c acc =>
      if c = '\n' then [] :: acc
      else
        match acc with
        | [] => [[c]]
        | line :: rest => (c :: line) :: rest)
    []

/-! ## Example inputs -/

/-- The graph with vertices `0 .. n-1` whose degrees are the entries of the
table; its largest id is `n - 1`. -/
def graphOfDegrees (degs : List Nat) : Graph :=
  { nodes := List.range degs.length
    getDeg := fun v => degs.getD v 0
    getMaxVid := degs.length - 1 }

/-- Vertices `{0,1,2}`, edges `{(0,1), (0,2)}`: degrees `{0:2, 1:1, 2:1}`. -/
def smallGraph : Graph := graphOfDegrees [2, 1, 1]

/-- Vertices `{0,1,2}`, one edge `(1,2)`: vertex `0` is isolated. -/
def isolatedFirstGraph : Graph := graphOfDegrees [0, 1, 1]

/-- Vertices `{0,1,2}`, one edge `(0,1)`: vertex `2` is isolated. -/
def isolatedLastGraph : Graph := graphOfDegrees [1, 1, 0]

/-- Vertices `{0,1,2,3}`, edges `{(0,1), (0,2), (2,3)}`, unpartitioned. -/
def pathGraph : Graph := graphOfDegrees [2, 1, 2, 1]

/-- The part of `pathGraph` held by the rank that stores the edge `(2,3)`. -/
def pathGraphTail : Graph :=
  { nodes := [2, 3]
    getDeg := fun v => if v = 2 ∨ v = 3 then 1 else 0
    getMaxVid := 3 }

/-- One edge between vertex `0` and the vertex with the largest 64-bit id. -/
def topIdGraph64 : Graph :=
  { nodes := [0, 18446744073709551615]
    getDeg := fun _ => 1
    getMaxVid := 18446744073709551615 }

/-- One edge between vertex `0` and the vertex with the largest 32-bit id. -/
def topIdGraph32 : Graph :=
  { nodes := [0, 4294967295]
    getDeg := fun _ => 1
    getMaxVid := 4294967295 }

/-- The vertices and degrees of `smallGraph`, enumerated in another order. -/
def smallGraphReordered : Graph :=
  { nodes := [2, 0, 1]
    getDeg := fun v => if v = 0 then 2 else if v ≤ 2 then 1 else 0
    getMaxVid := 2 }

/-- One edge between vertex `0` and vertex `2 ^ 31`, the first id that does
not fit the `int` count of the sum-reduction. -/
def signBitGraph : Graph :=
  { nodes := [0, 2147483648]
    getDeg := fun _ => 1
    getMaxVid := 2147483648 }

end Sheep

namespace Sheep

/-! ## The degree order and the sort -/

theorem degreeLess_eq_false_iff (deg : Nat → Nat) (a b : Nat) :
    degreeLess deg b a = false ↔ deg a < deg b ∨ (deg a = deg b ∧ a ≤ b) := by
  unfold degreeLess
  by_cases h : deg b = deg a
  · simp [h]
  · simp [h]
    omega

theorem degreeLess_eq_true_iff (deg : Nat → Nat) (a b : Nat) :
    degreeLess deg a b = true ↔ deg a < deg b ∨ (deg a = deg b ∧ a < b) := by
  unfold degreeLess
  by_cases h : deg a = deg b
  · simp [h]
  · simp [h]

instance degreeLE_total (deg : Nat → Nat) :
    IsTotal Nat (fun a b => degreeLess deg b a = false) :=
  ⟨fun a b => by
    simp only [degreeLess_eq_false_iff]
    omega⟩

instance degreeLE_trans (deg : Nat → Nat) :
    IsTrans Nat (fun a b => degreeLess deg b a = false) :=
  ⟨fun a b c => by
    simp only [degreeLess_eq_false_iff]
    omega⟩

instance degreeLE_antisymm (deg : Nat → Nat) :
    IsAntisymm Nat (fun a b => degreeLess deg b a = false) :=
  ⟨fun a b => by
    simp only [degreeLess_eq_false_iff]
    omega⟩

theorem parallelSort_perm (comp : Nat → Nat → Bool) (seq : List Nat) :
    (parallelSort comp seq).Perm seq :=
  List.perm_insertionSort _ seq

theorem mem_parallelSort (comp : Nat → Nat → Bool) (seq : List Nat) (v : Nat) :
    v ∈ parallelSort comp seq ↔ v ∈ seq :=
  (parallelSort_perm comp seq).mem_iff

theorem parallelSort_nodup (comp : Nat → Nat → Bool) (seq : List Nat) (h : seq.Nodup) :
    (parallelSort comp seq).Nodup :=
  (parallelSort_perm comp seq).nodup_iff.mpr h

theorem parallelSort_sorted (deg : Nat → Nat) (seq : List Nat) :
    (parallelSort (degreeLess deg) seq).Sorted (fun a b => degreeLess deg b a = false) :=
  List.sorted_insertionSort _ seq

/-- The sort is determined by the set of its elements: two duplicate-free
inputs with the same elements sort to the same list. -/
theorem parallelSort_eq_of_perm (deg : Nat → Nat) (l₁ l₂ : List Nat) (h : l₁.Perm l₂) :
    parallelSort (degreeLess deg) l₁ = parallelSort (degreeLess deg) l₂ :=
  List.eq_of_perm_of_sorted
    (((parallelSort_perm _ l₁).trans h).trans (parallelSort_perm _ l₂).symm)
    (parallelSort_sorted deg l₁) (parallelSort_sorted deg l₂)

/-- In a duplicate-free sorted sequence every adjacent pair is strictly
ascending in (degree, id). -/
theorem parallelSort_chain (deg : Nat → Nat) (seq : List Nat) (h : seq.Nodup) :
    (parallelSort (degreeLess deg) seq).Chain'
      (fun a b => deg a < deg b ∨ (deg a = deg b ∧ a < b)) := by
  have hs := parallelSort_sorted deg seq
  have hn : (parallelSort (degreeLess deg) seq).Pairwise (fun a b => a ≠ b) :=
    parallelSort_nodup _ seq h
  have hp := List.Pairwise.and hs hn
  refine List.Pairwise.chain' (hp.imp ?_)
  intro a b hab
  have h1 := (degreeLess_eq_false_iff deg a b).mp hab.1
  have h2 := hab.2
  omega

theorem defaultSequence_eq (graph : Graph) : defaultSequence graph = graph.nodes := by
  unfold defaultSequence
  have key : ∀ (l acc : List Nat), l.foldl (fun seq v => seq ++ [v]) acc = acc ++ l := by
    intro l
    induction l with
    | nil => intro acc; simp
    | cons x xs ih => intro acc; simp [ih]
  simpa using key graph.nodes []

end Sheep

namespace Sheep

/-! ## `degreeSequence` -/

theorem degreeSequence_perm (graph : Graph) :
    (degreeSequence graph).Perm graph.nodes := by
  unfold degreeSequence
  rw [defaultSequence_eq]
  exact parallelSort_perm _ _

/-- C5, as the code has it: `degreeSequence` returns exactly the vertices that
the iterator enumerates, each exactly once, whatever their degree; a vertex of
degree zero is kept, not dropped. -/
theorem degreeSequence_keeps_every_vertex (graph : Graph) (h : graph.nodes.Nodup) :
    (∀ v, v ∈ degreeSequence graph ↔ v ∈ graph.nodes) ∧
    (degreeSequence graph).Nodup ∧
    (∀ v, v ∈ graph.nodes → graph.getDeg v = 0 → v ∈ degreeSequence graph) := by
  have hp := degreeSequence_perm graph
  exact ⟨fun v => hp.mem_iff, hp.nodup_iff.mpr h, fun v hv _ => hp.mem_iff.mpr hv⟩

theorem degreeSequence_keeps_every_vertex_witness :
    isolatedFirstGraph.nodes.Nodup ∧
    (∀ v, v ∈ degreeSequence isolatedFirstGraph ↔ v ∈ isolatedFirstGraph.nodes) ∧
    (degreeSequence isolatedFirstGraph).Nodup ∧
    (∀ v, v ∈ isolatedFirstGraph.nodes → isolatedFirstGraph.getDeg v = 0 →
      v ∈ degreeSequence isolatedFirstGraph) :=
  ⟨by decide, degreeSequence_keeps_every_vertex isolatedFirstGraph (by decide)⟩

/-- C5 as stated fails: on the graph with vertices `{0,1,2}` and the single
edge `(1,2)` the iterator enumerates each vertex once, vertex `0` has degree
zero, and `degreeSequence` returns `[0, 1, 2]`, which contains it. -/
theorem degreeSequence_zero_degree_counterexample :
    isolatedFirstGraph.nodes.Nodup ∧
    isolatedFirstGraph.getDeg 0 = 0 ∧
    degreeSequence isolatedFirstGraph = [0, 1, 2] ∧
    ¬ (∀ v, v ∈ degreeSequence isolatedFirstGraph ↔
        (v ∈ isolatedFirstGraph.nodes ∧ isolatedFirstGraph.getDeg v ≠ 0)) := by
  refine ⟨by decide, by decide, by decide, ?_⟩
  intro hall
  have h0 : 0 ∈ degreeSequence isolatedFirstGraph := by decide
  exact ((hall 0).mp h0).2 (by decide)

/-- C6: when the iterator enumerates each vertex id once, `degreeSequence` is a
permutation of `defaultSequence` in which every adjacent pair `(a, b)` has
`degree(a) < degree(b)`, or `degree(a) = degree(b)` and `a < b`. -/
theorem degreeSequence_sorted_permutation (graph : Graph) (h : graph.nodes.Nodup) :
    (degreeSequence graph).Perm (defaultSequence graph) ∧
    (degreeSequence graph).Chain'
      (fun a b => graph.getDeg a < graph.getDeg b ∨
        (graph.getDeg a = graph.getDeg b ∧ a < b)) := by
  refine ⟨parallelSort_perm _ _, ?_⟩
  unfold degreeSequence
  exact parallelSort_chain graph.getDeg _ (by rw [defaultSequence_eq]; exact h)

theorem degreeSequence_sorted_permutation_witness :
    smallGraph.nodes.Nodup ∧
    degreeSequence smallGraph = [1, 2, 0] ∧
    (degreeSequence smallGraph).Perm (defaultSequence smallGraph) ∧
    (degreeSequence smallGraph).Chain'
      (fun a b => smallGraph.getDeg a < smallGraph.getDeg b ∨
        (smallGraph.getDeg a = smallGraph.getDeg b ∧ a < b)) :=
  ⟨by decide, by decide, degreeSequence_sorted_permutation smallGraph (by decide)⟩

/-! ## `mpiSequence` -/

/-- C2: the sequence that `mpiSequence` returns is the same on every rank: it
is computed from the two all-reduced results only. -/
theorem mpiSequence_same_on_every_rank (w we : Nat) (graphs : List Graph) (i j : Nat)
    (hi : i < graphs.length) (hj : j < graphs.length) :
    mpiSequence w we graphs i = mpiSequence w we graphs j := by
  unfold mpiSequence
  rw [List.get?_eq_get hi, List.get?_eq_get hj]

theorem mpiSequence_same_on_every_rank_witness :
    (0 < [smallGraph, isolatedLastGraph].length ∧ 1 < [smallGraph, isolatedLastGraph].length) ∧
    mpiSequence 32 32 [smallGraph, isolatedLastGraph] 0 = some [1, 0] ∧
    mpiSequence 32 32 [smallGraph, isolatedLastGraph] 0
      = mpiSequence 32 32 [smallGraph, isolatedLastGraph] 1 :=
  ⟨⟨by decide, by decide⟩, by decide,
    mpiSequence_same_on_every_rank 32 32 [smallGraph, isolatedLastGraph] 0 1
      (by decide) (by decide)⟩

end Sheep

namespace Sheep

theorem foldl_max_ge (l : List Nat) (a : Nat) :
    a ≤ l.foldl max a ∧ ∀ x ∈ l, x ≤ l.foldl max a := by
  induction l generalizing a with
  | nil => simp
  | cons y ys ih =>
    simp only [List.foldl_cons, List.mem_cons]
    have h := ih (max a y)
    refine ⟨le_trans (le_max_left a y) h.1, ?_⟩
    rintro x (rfl | hx)
    · exact le_trans (le_max_right a x) h.1
    · exact h.2 x hx

theorem MPI_Allreduce_MAX_ge (l : List Nat) (x : Nat) (hx : x ∈ l) :
    x ≤ MPI_Allreduce_MAX l :=
  (foldl_max_ge l 0).2 x hx

theorem getD_set_eq (l : List Nat) (v x i : Nat) (hv : v < l.length) :
    (l.set v x).getD i 0 = if i = v then x else l.getD i 0 := by
  simp only [List.getD_eq_getElem?_getD, List.getElem?_set]
  by_cases h : v = i
  · subst h; simp [hv]
  · have h2 : ¬ i = v := fun e => h e.symm
    simp [h, h2]

theorem fillLocalDegree_aux (we : Nat) (deg : Nat → Nat) (nodes : List Nat) (ld : List Nat)
    (hb : ∀ v ∈ nodes, v < ld.length) :
    ∃ out, nodes.foldlM
        (fun ld v => if v < ld.length then some (ld.set v (deg v % 2 ^ we)) else none) ld
        = some out ∧ out.length = ld.length ∧
      ∀ i, out.getD i 0 = if i ∈ nodes then deg i % 2 ^ we else ld.getD i 0 := by
  induction nodes generalizing ld with
  | nil => exact ⟨ld, by simp⟩
  | cons v vs ih =>
    have hv : v < ld.length := hb v (List.mem_cons_self _ _)
    obtain ⟨out, h1, h2, h3⟩ := ih (ld.set v (deg v % 2 ^ we))
      (by intro u hu; simpa using hb u (List.mem_cons_of_mem _ hu))
    refine ⟨out, ?_, by simpa using h2, ?_⟩
    · simp only [List.foldlM_cons, hv, if_true]
      exact h1
    · intro i
      rw [h3 i, getD_set_eq _ _ _ _ hv]
      by_cases hi : i = v
      · subst hi; simp
      · by_cases hm : i ∈ vs
        · simp [hm]
        · simp [hm, hi]

theorem getD_map_range (n : Nat) (f : Nat → Nat) (i : Nat) :
    ((List.range n).map f).getD i 0 = if i < n then f i else 0 := by
  simp only [List.getD_eq_getElem?_getD, List.getElem?_map, List.getElem?_range]
  by_cases h : i < n
  · simp [h, List.getElem?_range]
  · simp [h, List.getElem?_eq_none (l := List.range n) (by simpa using h)]

theorem fillLocalDegree_eq (we size : Nat) (p : Graph) (hb : ∀ v ∈ p.nodes, v < size) :
    fillLocalDegree we p (List.replicate size 0) = some (localDegreeArray we size p) := by
  obtain ⟨out, h1, h2, h3⟩ := fillLocalDegree_aux we p.getDeg p.nodes (List.replicate size 0)
    (by simpa using hb)
  unfold fillLocalDegree
  rw [h1]
  congr 1
  apply List.ext_getElem?
  intro i
  have h4 := h3 i
  have h5 := getD_map_range size (fun i => if i ∈ p.nodes then p.getDeg i % 2 ^ we else 0) i
  simp only [List.getD_eq_getElem?_getD, List.length_replicate] at h2 h4 h5
  by_cases hi : i < size
  · have e1 : out[i]? = some (out[i]?.getD 0) := by
      rw [List.getElem?_eq_getElem (by omega)]; simp
    have e2 : (localDegreeArray we size p)[i]? = some ((localDegreeArray we size p)[i]?.getD 0) := by
      rw [List.getElem?_eq_getElem (by simp [localDegreeArray]; omega)]; simp
    rw [e1, e2, h4]
    unfold localDegreeArray
    rw [h5]
    simp [hi, List.getElem?_replicate]
  · rw [List.getElem?_eq_none (by omega), List.getElem?_eq_none (by simp [localDegreeArray]; omega)]

theorem mapM_eq_some_map {α β : Type} (f : α → Option β) (g : α → β) (l : List α)
    (h : ∀ a ∈ l, f a = some (g a)) : l.mapM f = some (l.map g) := by
  induction l with
  | nil => rfl
  | cons a as ih =>
    rw [List.mapM_cons, h a (List.mem_cons_self _ _),
      ih (fun b hb => h b (List.mem_cons_of_mem _ hb))]
    rfl

theorem sum_map_mod {α : Type} (l : List α) (t : α → Nat) (M : Nat)
    (h : (l.map t).sum < M) : (l.map (fun a => t a % M)).sum = (l.map t).sum := by
  induction l with
  | nil => rfl
  | cons a as ih =>
    simp only [List.map_cons, List.sum_cons] at h ⊢
    rw [ih (by omega), Nat.mod_eq_of_lt (by omega)]

theorem sum_map_zero {α : Type} (l : List α) (t : α → Nat) (h : ∀ a ∈ l, t a = 0) :
    (l.map t).sum = 0 := by
  induction l with
  | nil => rfl
  | cons a as ih =>
    simp only [List.map_cons, List.sum_cons]
    rw [h a (List.mem_cons_self _ _), ih (fun b hb => h b (List.mem_cons_of_mem _ hb))]

end Sheep

namespace Sheep

theorem intOfVid_eq (x : Nat) (h : x < 2 ^ 31) : intOfVid x = (x : Int) := by
  have h1 : x % 2 ^ 32 = x := Nat.mod_eq_of_lt (by omega)
  unfold intOfVid
  rw [h1, if_pos h]

/-- A `max_vid` whose low 32 bits have the sign bit set gives a negative count:
the sum-reduction is refused and no sequence is returned. -/
theorem mpiSequence_negative_count (w we : Nat) (graphs : List Graph) (rank : Nat)
    (h : intOfVid (MPI_Allreduce_MAX (graphs.map (fun g => g.getMaxVid))) < 0) :
    mpiSequence w we graphs rank = none := by
  unfold mpiSequence
  split
  · rfl
  · simp only
    split
    · rfl
    · rw [if_pos h]

/-- The result of `mpiSequence` when `max_vid + 1` does not wrap, `max_vid` fits
the `int` count and every rank enumerates only ids up to its `getMaxVid()`: no
access is out of bounds and the sequence is the sorted list of the nonzero
slots of the reduced array. -/
theorem mpiSequence_eq (w we : Nat) (graphs : List Graph) (rank : Nat)
    (hrank : rank < graphs.length)
    (hw : MPI_Allreduce_MAX (graphs.map (fun g => g.getMaxVid)) + 1 < 2 ^ w)
    (hcount : MPI_Allreduce_MAX (graphs.map (fun g => g.getMaxVid)) < 2 ^ 31)
    (hlocal : ∀ p ∈ graphs, ∀ v ∈ p.nodes, v ≤ p.getMaxVid) :
    mpiSequence w we graphs rank =
      some (parallelSort
        (degreeLess (fun v =>
          (reducedDegree we (MPI_Allreduce_MAX (graphs.map (fun g => g.getMaxVid))) graphs).getD v 0))
        (nonzeroIndices (MPI_Allreduce_MAX (graphs.map (fun g => g.getMaxVid)) + 1)
          (reducedDegree we (MPI_Allreduce_MAX (graphs.map (fun g => g.getMaxVid))) graphs))) := by
  generalize hm : MPI_Allreduce_MAX (graphs.map (fun g => g.getMaxVid)) = max_vid at hw hcount
  have hbound : ∀ p ∈ graphs, ∀ v ∈ p.nodes, v < max_vid + 1 := by
    intro p hp v hv
    have h1 := hlocal p hp v hv
    have h2 : p.getMaxVid ≤ max_vid := by
      rw [← hm]
      exact MPI_Allreduce_MAX_ge _ _ (List.mem_map.mpr ⟨p, hp, rfl⟩)
    omega
  have hsend : graphs.mapM (fun g => fillLocalDegree we g (List.replicate (max_vid + 1) 0))
      = some (graphs.map (localDegreeArray we (max_vid + 1))) :=
    mapM_eq_some_map _ _ _ (fun p hp => fillLocalDegree_eq we (max_vid + 1) p (hbound p hp))
  have hsum : MPI_Allreduce_SUM we max_vid (graphs.map (localDegreeArray we (max_vid + 1)))
      (List.replicate (max_vid + 1) 0) = some (reducedDegree we max_vid graphs) := by
    unfold MPI_Allreduce_SUM
    have hc : (max_vid ≤ (List.replicate (max_vid + 1) 0).length ∧
        (graphs.map (localDegreeArray we (max_vid + 1))).all
          (fun b => decide (max_vid ≤ b.length)) = true) := by
      refine ⟨by simp, ?_⟩
      rw [List.all_eq_true]
      intro b hb
      obtain ⟨p, _, rfl⟩ := List.mem_map.mp hb
      simp [localDegreeArray]
    rw [if_pos hc]
    congr 1
    unfold reducedDegree
    simp only [List.length_replicate, List.map_map]
    apply List.map_congr_left
    intro i _
    by_cases hi : i < max_vid
    · simp only [hi, if_true]
      rfl
    · simp only [hi, if_false]
      simp only [List.getD_eq_getElem?_getD, List.getElem?_replicate]
      split <;> rfl
  have hint : intOfVid max_vid = (max_vid : Int) := intOfVid_eq max_vid hcount
  unfold mpiSequence
  rw [List.get?_eq_get hrank]
  simp only [hm, Nat.mod_eq_of_lt hw, hsend, hint, Int.toNat_ofNat, hsum]
  rw [if_neg (by omega)]

end Sheep

namespace Sheep

/-- Below `max_vid` the reduced array holds the degree of the unpartitioned
graph at the ids it has, and zero elsewhere. -/
theorem reducedDegree_getD (we : Nat) (graphs : List Graph) (g : Graph) (max_vid : Nat)
    (hsub : ∀ p ∈ graphs, ∀ v ∈ p.nodes, v ∈ g.nodes)
    (hdeg : ∀ v ∈ g.nodes,
      g.getDeg v = (graphs.map (fun p => if v ∈ p.nodes then p.getDeg v else 0)).sum)
    (hfit : ∀ v ∈ g.nodes, g.getDeg v < 2 ^ we)
    (i : Nat) (hi : i < max_vid) :
    (reducedDegree we max_vid graphs).getD i 0 = if i ∈ g.nodes then g.getDeg i else 0 := by
  unfold reducedDegree
  rw [getD_map_range]
  have hi1 : i < max_vid + 1 := by omega
  simp only [hi1, hi, if_true]
  have hloc : ∀ p : Graph, (localDegreeArray we (max_vid + 1) p).getD i 0
      = (if i ∈ p.nodes then p.getDeg i else 0) % 2 ^ we := by
    intro p
    unfold localDegreeArray
    rw [getD_map_range]
    simp only [hi1, if_true]
    split <;> simp
  simp only [hloc]
  by_cases hg : i ∈ g.nodes
  · simp only [hg, if_true]
    have hs := hdeg i hg
    have hf := hfit i hg
    rw [sum_map_mod graphs (fun p => if i ∈ p.nodes then p.getDeg i else 0) (2 ^ we)
      (by rw [← hs]; exact hf), ← hs]
    exact Nat.mod_eq_of_lt hf
  · simp only [hg, if_false]
    rw [sum_map_zero]
    · simp
    · intro p hp
      have : i ∉ p.nodes := fun h => hg (hsub p hp i h)
      simp [this]

/-- C1, as the code has it: for a graph partitioned over `P ≥ 1` ranks (every
rank enumerates ids up to its `getMaxVid()`, `max_vid + 1` fits `vid_t`,
`max_vid` fits the `int` count of the sum-reduction, the
degree of the unpartitioned graph is the sum of the local degrees and fits
`esize_t`), `mpiSequence` returns a sequence, and on the ids below `max_vid`
that sequence is `degreeSequence` of the unpartitioned graph without its
vertices of degree zero.  Nothing is said about the id `max_vid` itself. -/
theorem mpiSequence_refines_degreeSequence (w we : Nat) (graphs : List Graph) (g : Graph)
    (rank : Nat) (hrank : rank < graphs.length)
    (hw : MPI_Allreduce_MAX (graphs.map (fun g => g.getMaxVid)) + 1 < 2 ^ w)
    (hcount : MPI_Allreduce_MAX (graphs.map (fun g => g.getMaxVid)) < 2 ^ 31)
    (hlocal : ∀ p ∈ graphs, ∀ v ∈ p.nodes, v ≤ p.getMaxVid)
    (hnodup : g.nodes.Nodup)
    (hsub : ∀ p ∈ graphs, ∀ v ∈ p.nodes, v ∈ g.nodes)
    (hdeg : ∀ v ∈ g.nodes,
      g.getDeg v = (graphs.map (fun p => if v ∈ p.nodes then p.getDeg v else 0)).sum)
    (hfit : ∀ v ∈ g.nodes, g.getDeg v < 2 ^ we) :
    ∃ seq, mpiSequence w we graphs rank = some seq ∧
      seq.filter (fun v => decide (v < MPI_Allreduce_MAX (graphs.map (fun g => g.getMaxVid))))
        = (degreeSequence g).filter (fun v => decide (g.getDeg v ≠ 0) &&
            decide (v < MPI_Allreduce_MAX (graphs.map (fun g => g.getMaxVid)))) := by
  refine ⟨_, mpiSequence_eq w we graphs rank hrank hw hcount hlocal, ?_⟩
  generalize MPI_Allreduce_MAX (graphs.map (fun g => g.getMaxVid)) = max_vid
  have hD := reducedDegree_getD we graphs g max_vid hsub hdeg hfit
  generalize hDdef : (fun v => (reducedDegree we max_vid graphs).getD v 0) = D
  have hD2 : ∀ i, i < max_vid → D i = if i ∈ g.nodes then g.getDeg i else 0 := by
    intro i hi; rw [← hDdef]; exact hD i hi
  have hseq0 : nonzeroIndices (max_vid + 1) (reducedDegree we max_vid graphs)
      = (List.range (max_vid + 1)).filter (fun X => D X != 0) := by
    rw [← hDdef]; rfl
  rw [hseq0]
  have hmemL : ∀ v, v ∈ (parallelSort (degreeLess D)
      ((List.range (max_vid + 1)).filter (fun X => D X != 0))).filter
        (fun v => decide (v < max_vid)) ↔
      (v < max_vid ∧ v ∈ g.nodes ∧ g.getDeg v ≠ 0) := by
    intro v
    simp only [List.mem_filter, mem_parallelSort, List.mem_range, decide_eq_true_eq, bne_iff_ne]
    constructor
    · rintro ⟨⟨_, h2⟩, h3⟩
      rw [hD2 v h3] at h2
      by_cases hv : v ∈ g.nodes
      · simp only [hv, if_true] at h2
        exact ⟨h3, hv, h2⟩
      · simp [hv] at h2
    · rintro ⟨h1, h2, h3⟩
      refine ⟨⟨by omega, ?_⟩, h1⟩
      rw [hD2 v h1]
      simpa [h2] using h3
  have hmemR : ∀ v, v ∈ (degreeSequence g).filter (fun v => decide (g.getDeg v ≠ 0) &&
      decide (v < max_vid)) ↔ (v < max_vid ∧ v ∈ g.nodes ∧ g.getDeg v ≠ 0) := by
    intro v
    simp only [List.mem_filter, (degreeSequence_perm g).mem_iff, Bool.and_eq_true,
      decide_eq_true_eq]
    tauto
  apply List.eq_of_perm_of_sorted (r := fun a b => degreeLess g.getDeg b a = false)
  · apply (List.perm_ext_iff_of_nodup ?_ ?_).mpr
    · intro v; rw [hmemL v, hmemR v]
    · exact (parallelSort_nodup _ _ ((List.nodup_range _).filter _)).filter _
    · exact ((degreeSequence_perm g).nodup_iff.mpr hnodup).filter _
  · have hs := (parallelSort_sorted D
      ((List.range (max_vid + 1)).filter (fun X => D X != 0))).filter
        (fun v => decide (v < max_vid))
    refine List.Pairwise.imp_of_mem ?_ hs
    intro a b ha hb hab
    have ha2 := (hmemL a).mp ha
    have hb2 := (hmemL b).mp hb
    have ea : D a = g.getDeg a := by rw [hD2 a ha2.1]; simp [ha2.2.1]
    have eb : D b = g.getDeg b := by rw [hD2 b hb2.1]; simp [hb2.2.1]
    rw [degreeLess_eq_false_iff] at hab ⊢
    rw [ea, eb] at hab
    exact hab
  · exact (parallelSort_sorted g.getDeg _).filter _

theorem mpiSequence_refines_degreeSequence_witness :
    ∃ seq, mpiSequence 32 32 [smallGraph, pathGraphTail] 1 = some seq ∧
      seq.filter (fun v => decide (v <
          MPI_Allreduce_MAX ([smallGraph, pathGraphTail].map (fun g => g.getMaxVid))))
        = (degreeSequence pathGraph).filter (fun v => decide (pathGraph.getDeg v ≠ 0) &&
            decide (v <
              MPI_Allreduce_MAX ([smallGraph, pathGraphTail].map (fun g => g.getMaxVid)))) :=
  mpiSequence_refines_degreeSequence 32 32 [smallGraph, pathGraphTail] pathGraph 1
    (by decide) (by decide) (by decide) (by decide) (by decide) (by decide) (by decide)
    (by decide)

/-- C1 as stated fails with a single participant, in two ways.  On the graph
with vertices `{0,1,2}` and the edge `(0,1)`, `mpiSequence` drops the isolated
vertex `2` that `degreeSequence` keeps.  On the graph with edges `(0,1)` and
`(0,2)`, whose degrees are all nonzero, the sum-reduction of `max_vid` slots
leaves out the slot `max_vid = 2` and `mpiSequence` returns `[1, 0]` where
`degreeSequence` returns `[1, 2, 0]`. -/
theorem mpiSequence_ne_degreeSequence_counterexample :
    (mpiSequence 32 32 [isolatedLastGraph] 0 = some [0, 1] ∧
      degreeSequence isolatedLastGraph = [2, 0, 1] ∧
      mpiSequence 32 32 [isolatedLastGraph] 0 ≠ some (degreeSequence isolatedLastGraph)) ∧
    (mpiSequence 32 32 [smallGraph] 0 = some [1, 0] ∧
      degreeSequence smallGraph = [1, 2, 0] ∧
      mpiSequence 32 32 [smallGraph] 0 ≠ some (degreeSequence smallGraph)) := by
  decide

end Sheep

namespace Sheep

/-! ## `fileSequence_template` -/

theorem growDegree_length (w : Nat) (degree : List Nat) (X Y : Nat) :
    (growDegree w degree X Y).length = max degree.length ((max X Y + 1) % 2 ^ w) := by
  unfold growDegree
  by_cases h : degree.length < (max X Y + 1) % 2 ^ w
  · simp only [h, if_true, List.length_append, List.length_replicate]
    omega
  · simp only [h, if_false]
    omega

theorem growDegree_getD (w : Nat) (degree : List Nat) (X Y v : Nat) :
    (growDegree w degree X Y).getD v 0 = degree.getD v 0 := by
  unfold growDegree
  by_cases h : degree.length < (max X Y + 1) % 2 ^ w
  · simp only [h, if_true, List.getD_eq_getElem?_getD]
    by_cases hv : v < degree.length
    · rw [List.getElem?_append_left hv]
    · rw [List.getElem?_append_right (by omega), List.getElem?_eq_none (l := degree) (by omega)]
      simp only [List.getElem?_replicate]
      split <;> rfl
  · simp only [h, if_false]

theorem incrDegree_eq (w : Nat) (degree : List Nat) (X : Nat) (h : X < degree.length) :
    incrDegree w degree X = some (degree.set X ((degree.getD X 0 + 1) % 2 ^ w)) := by
  unfold incrDegree
  rw [if_pos h]

/-- One loop iteration on an edge whose `max(X,Y) + 1` does not wrap: both
increments are in bounds, the vector has grown to cover `max(X,Y)`, and every
slot has advanced by the number of endpoints of the edge that equal it. -/
theorem recordEdge_spec (w : Nat) (degree : List Nat) (e : Nat × Nat) (c : Nat → Nat)
    (hc : ∀ v, degree.getD v 0 = c v % 2 ^ w) (he : max e.1 e.2 + 1 < 2 ^ w) :
    ∃ d, recordEdge w degree e = some d ∧
      d.length = max degree.length (max e.1 e.2 + 1) ∧
      ∀ v, d.getD v 0
        = (c v + ((if e.1 = v then 1 else 0) + (if e.2 = v then 1 else 0))) % 2 ^ w := by
  obtain ⟨X, Y⟩ := e
  simp only at he ⊢
  have hlen := growDegree_length w degree X Y
  rw [Nat.mod_eq_of_lt he] at hlen
  have hX : X < (growDegree w degree X Y).length := by rw [hlen]; omega
  have hY : Y < ((growDegree w degree X Y).set X
      (((growDegree w degree X Y).getD X 0 + 1) % 2 ^ w)).length := by
    rw [List.length_set, hlen]; omega
  generalize hd1 : (growDegree w degree X Y).set X
      (((growDegree w degree X Y).getD X 0 + 1) % 2 ^ w) = d1 at hY
  refine ⟨d1.set Y ((d1.getD Y 0 + 1) % 2 ^ w), ?_, ?_, ?_⟩
  · unfold recordEdge
    simp only [incrDegree_eq w _ X hX, hd1]
    exact incrDegree_eq w _ Y hY
  · simp only [List.length_set, ← hd1, hlen]
  · intro v
    rw [getD_set_eq _ _ _ _ hY]
    simp only [← hd1]
    rw [getD_set_eq _ _ _ _ hX, getD_set_eq _ _ _ _ hX]
    simp only [growDegree_getD, hc]
    by_cases h1 : X = v <;> by_cases h2 : Y = v
    · subst h1; subst h2
      simp only [if_true]
      rw [Nat.mod_add_mod, Nat.add_assoc, Nat.mod_add_mod]
    · subst h1
      have h3 : ¬ X = Y := fun e => h2 e.symm
      simp only [if_true, h2, h3, if_false]
      rw [Nat.mod_add_mod]
    · subst h2
      have h3 : ¬ Y = X := fun e => h1 e.symm
      simp only [if_true, h1, h3, if_false]
      rw [Nat.mod_add_mod]
    · have h3 : ¬ v = X := fun e => h1 e.symm
      have h4 : ¬ v = Y := fun e => h2 e.symm
      simp only [h1, h2, h3, h4, if_false]
      simp

theorem scanEdges_aux (w : Nat) (edges : List (Nat × Nat)) (degree : List Nat) (c : Nat → Nat)
    (hc : ∀ v, degree.getD v 0 = c v % 2 ^ w)
    (hgrow : ∀ e ∈ edges, max e.1 e.2 + 1 < 2 ^ w) :
    ∃ d, edges.foldlM (recordEdge w) degree = some d ∧
      d.length = max degree.length (requiredLength edges) ∧
      ∀ v, d.getD v 0 = (c v + endpointCount v edges) % 2 ^ w := by
  induction edges generalizing degree c with
  | nil =>
    refine ⟨degree, rfl, by simp [requiredLength], ?_⟩
    intro v; simpa [endpointCount] using hc v
  | cons e es ih =>
    obtain ⟨d1, h1, h2, h3⟩ := recordEdge_spec w degree e c hc
      (hgrow e (List.mem_cons_self _ _))
    obtain ⟨d, h4, h5, h6⟩ := ih d1
      (fun v => c v + ((if e.1 = v then 1 else 0) + (if e.2 = v then 1 else 0))) h3
      (fun x hx => hgrow x (List.mem_cons_of_mem _ hx))
    refine ⟨d, ?_, ?_, ?_⟩
    · rw [List.foldlM_cons, h1]
      exact h4
    · rw [h5, h2]
      simp only [requiredLength, List.map_cons, List.foldr_cons]
      omega
    · intro v
      rw [h6 v]
      simp only [endpointCount, List.map_cons, List.sum_cons]
      congr 1
      omega

/-- The whole scan of an edge list whose ids all have a representable
successor: no access is out of bounds, the vector ends with the length
`requiredLength`, and slot `v` holds the number of endpoints equal to `v`,
modulo `2 ^ w`. -/
theorem scanEdges_spec (w : Nat) (edges : List (Nat × Nat))
    (hgrow : ∀ e ∈ edges, max e.1 e.2 + 1 < 2 ^ w) :
    ∃ d, scanEdges w edges = some d ∧ d.length = requiredLength edges ∧
      ∀ v, d.getD v 0 = endpointCount v edges % 2 ^ w := by
  obtain ⟨d, h1, h2, h3⟩ := scanEdges_aux w edges [] (fun _ => 0) (by intro v; simp) hgrow
  exact ⟨d, h1, by simpa using h2, by intro v; simpa using h3 v⟩

end Sheep

namespace Sheep

theorem endpointCount_ne_zero_iff (v : Nat) (edges : List (Nat × Nat)) :
    endpointCount v edges ≠ 0 ↔ ∃ e ∈ edges, e.1 = v ∨ e.2 = v := by
  induction edges with
  | nil => simp [endpointCount]
  | cons e es ih =>
    have hstep : endpointCount v (e :: es)
        = ((if e.1 = v then 1 else 0) + (if e.2 = v then 1 else 0)) + endpointCount v es := by
      simp [endpointCount]
    rw [hstep]
    constructor
    · intro h
      by_cases h1 : e.1 = v
      · exact ⟨e, List.mem_cons_self _ _, Or.inl h1⟩
      · by_cases h2 : e.2 = v
        · exact ⟨e, List.mem_cons_self _ _, Or.inr h2⟩
        · have h3 : endpointCount v es ≠ 0 := by
            simp only [h1, h2, if_false] at h
            omega
          obtain ⟨x, hx, hxv⟩ := ih.mp h3
          exact ⟨x, List.mem_cons_of_mem _ hx, hxv⟩
    · rintro ⟨x, hx, hxv⟩
      rcases List.mem_cons.mp hx with rfl | hx2
      · rcases hxv with h1 | h2
        · simp only [h1, if_true]; omega
        · simp only [h2, if_true]; omega
      · have := ih.mpr ⟨x, hx2, hxv⟩
        omega

theorem endpointCount_le (v : Nat) (edges : List (Nat × Nat)) :
    endpointCount v edges ≤ 2 * edges.length := by
  induction edges with
  | nil => simp [endpointCount]
  | cons e es ih =>
    have hstep : endpointCount v (e :: es)
        = ((if e.1 = v then 1 else 0) + (if e.2 = v then 1 else 0)) + endpointCount v es := by
      simp [endpointCount]
    rw [hstep, List.length_cons]
    have h1 : (if e.1 = v then 1 else 0) ≤ 1 := by split <;> omega
    have h2 : (if e.2 = v then 1 else 0) ≤ 1 := by split <;> omega
    omega

theorem mem_nonzeroIndices (degree : List Nat) (v : Nat) :
    v ∈ nonzeroIndices degree.length degree ↔ degree.getD v 0 ≠ 0 := by
  unfold nonzeroIndices
  simp only [List.mem_filter, List.mem_range, bne_iff_ne]
  constructor
  · exact fun h => h.2
  · intro h
    refine ⟨?_, h⟩
    by_contra hlt
    exact h (List.getD_eq_default _ _ (by omega))

theorem nonzeroIndices_nodup (n : Nat) (degree : List Nat) :
    (nonzeroIndices n degree).Nodup :=
  (List.nodup_range n).filter _

/-- The result of `fileSequence_template` where the scan is defined: when every
id has a representable successor (`max(X,Y) + 1` does not wrap) and no degree
counter overflows, it returns the list of exactly the vertex ids that are an
endpoint of some edge, each once, in which every adjacent pair `(a, b)` has
`degree(a) < degree(b)`, or `degree(a) = degree(b)` and `a < b`; for no edge it
returns the empty sequence. -/
theorem fileSequence_template_sorted_endpoints (w : Nat)
    (reader : List Char → List (Nat × Nat)) (filename : List Char)
    (hgrow : ∀ e ∈ reader filename, max e.1 e.2 + 1 < 2 ^ w)
    (hcount : ∀ v, endpointCount v (reader filename) < 2 ^ w) :
    ∃ seq, fileSequence_template w reader filename = some seq ∧
      (∀ v, v ∈ seq ↔ ∃ e ∈ reader filename, e.1 = v ∨ e.2 = v) ∧
      seq.Nodup ∧
      seq.Chain' (fun a b =>
        endpointCount a (reader filename) < endpointCount b (reader filename) ∨
        (endpointCount a (reader filename) = endpointCount b (reader filename) ∧ a < b)) ∧
      (reader filename = [] → seq = []) := by
  obtain ⟨d, h1, _, h3⟩ := scanEdges_spec w (reader filename) hgrow
  have hD : (fun v => d.getD v 0) = (fun v => endpointCount v (reader filename)) := by
    funext v
    rw [h3 v, Nat.mod_eq_of_lt (hcount v)]
  refine ⟨parallelSort (degreeLess (fun v => d.getD v 0)) (nonzeroIndices d.length d),
    ?_, ?_, ?_, ?_, ?_⟩
  · unfold fileSequence_template
    rw [h1]
  · intro v
    rw [mem_parallelSort, mem_nonzeroIndices, h3 v, Nat.mod_eq_of_lt (hcount v)]
    exact endpointCount_ne_zero_iff v _
  · exact parallelSort_nodup _ _ (nonzeroIndices_nodup _ _)
  · rw [hD]
    exact parallelSort_chain _ _ (nonzeroIndices_nodup _ _)
  · intro he
    rw [he] at h1
    have hd : d = [] := by
      have : scanEdges w [] = some [] := rfl
      rw [this] at h1
      exact (Option.some.inj h1).symm
    subst hd
    rfl

theorem fileSequence_template_sorted_endpoints_witness :
    fileSequence_template 32 (fun _ => [(0, 1), (0, 2)]) ['g'] = some [1, 2, 0] ∧
    ∃ seq, fileSequence_template 32 (fun _ => [(0, 1), (0, 2)]) ['g'] = some seq ∧
      (∀ v, v ∈ seq ↔ ∃ e ∈ [((0 : Nat), (1 : Nat)), (0, 2)], e.1 = v ∨ e.2 = v) ∧
      seq.Nodup ∧
      seq.Chain' (fun a b =>
        endpointCount a [(0, 1), (0, 2)] < endpointCount b [(0, 1), (0, 2)] ∨
        (endpointCount a [(0, 1), (0, 2)] = endpointCount b [(0, 1), (0, 2)] ∧ a < b)) ∧
      ([((0 : Nat), (1 : Nat)), (0, 2)] = [] → seq = []) :=
  ⟨by decide,
    fileSequence_template_sorted_endpoints 32 (fun _ => [(0, 1), (0, 2)]) ['g']
      (by decide)
      (fun v => Nat.lt_of_le_of_lt (endpointCount_le v _) (by decide))⟩

end Sheep

namespace Sheep

/-- An edge with an id whose successor is not representable makes one of the two
increments fall outside the vector. -/
theorem recordEdge_eq_none (w : Nat) (degree : List Nat) (e : Nat × Nat)
    (hlen : degree.length < 2 ^ w) (he : 2 ^ w ≤ max e.1 e.2 + 1) :
    recordEdge w degree e = none := by
  obtain ⟨X, Y⟩ := e
  simp only at he
  have hpos : 0 < 2 ^ w := Nat.pow_pos (by decide)
  have hr : (max X Y + 1) % 2 ^ w < 2 ^ w := Nat.mod_lt _ hpos
  have hl := growDegree_length w degree X Y
  unfold recordEdge
  simp only
  by_cases hX : X < (growDegree w degree X Y).length
  · rw [incrDegree_eq w _ X hX]
    simp only
    unfold incrDegree
    rw [if_neg]
    rw [List.length_set, hl]
    rw [hl] at hX
    omega
  · unfold incrDegree
    rw [if_neg hX]

theorem recordEdge_length_lt (w : Nat) (degree d : List Nat) (e : Nat × Nat)
    (hlen : degree.length < 2 ^ w) (h : recordEdge w degree e = some d) :
    d.length < 2 ^ w := by
  obtain ⟨X, Y⟩ := e
  have hpos : 0 < 2 ^ w := Nat.pow_pos (by decide)
  have hr : (max X Y + 1) % 2 ^ w < 2 ^ w := Nat.mod_lt _ hpos
  have hl := growDegree_length w degree X Y
  unfold recordEdge incrDegree at h
  simp only at h
  split at h
  · exact absurd h (by simp)
  · rename_i d1 hd1
    split at hd1
    · have e1 := Option.some.inj hd1
      split at h
      · have e2 := Option.some.inj h
        rw [← e2, List.length_set, ← e1, List.length_set, hl]
        omega
      · exact absurd h (by simp)
    · exact absurd hd1 (by simp)

theorem foldlM_recordEdge_some (w : Nat) (edges : List (Nat × Nat)) (degree d : List Nat)
    (hlen : degree.length < 2 ^ w) (h : edges.foldlM (recordEdge w) degree = some d) :
    ∀ e ∈ edges, max e.1 e.2 + 1 < 2 ^ w := by
  induction edges generalizing degree with
  | nil => intro e he; exact absurd he (List.not_mem_nil e)
  | cons x xs ih =>
    rw [List.foldlM_cons] at h
    cases hx : recordEdge w degree x with
    | none => rw [hx] at h; exact absurd h (by simp)
    | some d1 =>
      rw [hx] at h
      have hxw : max x.1 x.2 + 1 < 2 ^ w := by
        by_contra hneg
        have := recordEdge_eq_none w degree x hlen (by omega)
        rw [this] at hx
        exact absurd hx (by simp)
      have hrest := ih d1 (recordEdge_length_lt w degree d1 x hlen hx) h
      intro e he
      rcases List.mem_cons.mp he with rfl | he2
      · exact hxw
      · exact hrest e he2

/-- The scan completes exactly on the edge lists whose ids all have a
representable successor. -/
theorem scanEdges_isSome_iff (w : Nat) (edges : List (Nat × Nat)) :
    (∃ d, scanEdges w edges = some d) ↔ ∀ e ∈ edges, max e.1 e.2 + 1 < 2 ^ w := by
  constructor
  · rintro ⟨d, hd⟩
    exact foldlM_recordEdge_some w edges [] d (Nat.pow_pos (by decide)) hd
  · intro h
    obtain ⟨d, hd, _⟩ := scanEdges_spec w edges h
    exact ⟨d, hd⟩

/-- C10 fails at the largest representable id: for a 64-bit (and likewise a
32-bit) `vid_t`, `std::max(X,Y) + 1` wraps to zero, the growth step leaves the
empty vector empty, so it does not cover index `max(X,Y)` and the increment
`degree[X] += 1` is out of bounds. -/
theorem growDegree_largest_id_not_covered :
    growDegree 64 [] 18446744073709551615 0 = [] ∧
    ¬ (max 18446744073709551615 0 < (growDegree 64 [] 18446744073709551615 0).length) ∧
    incrDegree 64 (growDegree 64 [] 18446744073709551615 0) 18446744073709551615 = none ∧
    scanEdges 64 [(18446744073709551615, 0)] = none ∧
    growDegree 32 [] 4294967295 0 = [] ∧
    scanEdges 32 [(4294967295, 0)] = none := by
  decide

end Sheep

namespace Sheep

/-! ## `fileSequence` -/

/-- For a name of at least four characters the dispatch is defined and picks
`XS1Reader` exactly when the name ends in `.dat`. -/
theorem selectReader_of_length_ge (filename : List Char) (h : 4 ≤ filename.length) :
    (selectReader filename = some ReaderType.XS1Reader ↔
      ['.', 'd', 'a', 't'] <:+ filename) ∧
    (selectReader filename = some ReaderType.SNAPReader ↔
      ¬ ['.', 'd', 'a', 't'] <:+ filename) := by
  have hsuf : ['.', 'd', 'a', 't'] <:+ filename ↔
      ['.', 'd', 'a', 't'] = filename.drop (filename.length - 4) := by
    constructor
    · rintro ⟨pre, rfl⟩
      simp
    · intro e
      rw [e]
      exact List.drop_suffix _ _
  have hnot : ¬ filename.length < 4 := by omega
  unfold selectReader strcmp
  rw [if_neg hnot, hsuf]
  by_cases e : ['.', 'd', 'a', 't'] = filename.drop (filename.length - 4)
  · simp [e]
  · simp only [e, if_false]
    constructor
    · constructor
      · intro h2; split at h2 <;> simp at h2
      · intro h2; exact absurd h2 (by simp)
    · constructor
      · intro _; simp
      · intro _; split <;> simp

/-- C9 fails for a path shorter than four characters: `filename +
strlen(filename) - 4` then points before the string, so the comparison reads
memory that is not part of the path and no reader is determined by the path.
For longer paths both branches are taken as the claim says. -/
theorem selectReader_short_path_undefined :
    selectReader ['d', 'a', 't'] = none ∧
    selectReader ['a'] = none ∧
    selectReader [] = none ∧
    selectReader ['g', '.', 'd', 'a', 't'] = some ReaderType.XS1Reader ∧
    selectReader ['g', '.', 'D', 'A', 'T'] = some ReaderType.SNAPReader ∧
    selectReader ['g', 'r', 'a', 'p', 'h'] = some ReaderType.SNAPReader := by
  decide

end Sheep

namespace Sheep

/-! ## Binary sequence files -/

theorem toBytesLE_length (n x : Nat) : (toBytesLE n x).length = n := by
  induction n generalizing x with
  | zero => rfl
  | succ n ih => simp [toBytesLE, ih]

theorem fromBytesLE_toBytesLE (n x : Nat) : fromBytesLE (toBytesLE n x) = x % 256 ^ n := by
  induction n generalizing x with
  | zero => simp [toBytesLE, fromBytesLE, Nat.mod_one]
  | succ n ih =>
    simp only [toBytesLE, fromBytesLE, ih]
    rw [pow_succ', Nat.mod_mul]

theorem objectBytes_length (bigEndian : Bool) (n x : Nat) :
    (objectBytes bigEndian n x).length = n := by
  unfold objectBytes
  split <;> simp [toBytesLE_length]

theorem objectValue_objectBytes (bigEndian : Bool) (n x : Nat) :
    objectValue bigEndian (objectBytes bigEndian n x) = x % 256 ^ n := by
  unfold objectValue objectBytes
  cases bigEndian <;> simp [fromBytesLE_toBytesLE]

theorem bytesOfVector_length (bigEndian : Bool) (vb : Nat) (seq : List Nat) :
    (bytesOfVector bigEndian vb seq).length = seq.length * vb := by
  induction seq with
  | nil => simp [bytesOfVector]
  | cons x xs ih =>
    have : bytesOfVector bigEndian vb (x :: xs)
        = objectBytes bigEndian vb x ++ bytesOfVector bigEndian vb xs := by
      simp [bytesOfVector]
    rw [this, List.length_append, ih, objectBytes_length, List.length_cons]
    ring

theorem vectorOfBytes_bytesOfVector (bigEndian : Bool) (vb : Nat) (seq extra : List Nat)
    (h : ∀ x ∈ seq, x < 256 ^ vb) :
    vectorOfBytes bigEndian vb seq.length (bytesOfVector bigEndian vb seq ++ extra) = seq := by
  induction seq with
  | nil => rfl
  | cons x xs ih =>
    have hcons : bytesOfVector bigEndian vb (x :: xs)
        = objectBytes bigEndian vb x ++ bytesOfVector bigEndian vb xs := by
      simp [bytesOfVector]
    have hl := objectBytes_length bigEndian vb x
    rw [hcons, List.length_cons, List.append_assoc]
    simp only [vectorOfBytes]
    rw [List.take_left' hl, List.drop_left' hl, objectValue_objectBytes,
      Nat.mod_eq_of_lt (h x (List.mem_cons_self _ _)),
      ih (fun y hy => h y (List.mem_cons_of_mem _ hy))]

theorem le_vectorMaxSize_of_mul_lt (vb n : Nat) (hvb : 0 < vb) (h : n * vb < 2 ^ 63) :
    n ≤ vectorMaxSize vb := by
  unfold vectorMaxSize
  exact (Nat.le_div_iff_mul_le hvb).mpr (by omega)

/-- C3: `readBinarySequence` applied to the bytes that `writeBinarySequence`
wrote for a sequence of vertex ids of the configured width returns that
sequence, element for element; the empty sequence included.  (`hsize`: the
storage of a vector is at most `PTRDIFF_MAX` bytes.) -/
theorem readBinarySequence_writeBinarySequence (bigEndian : Bool) (vb : Nat) (seq : List Nat)
    (hvb : 0 < vb) (helems : ∀ x ∈ seq, x < 2 ^ (8 * vb))
    (hsize : seq.length * vb < 2 ^ 63) :
    readBinarySequence bigEndian vb (writeBinarySequence bigEndian vb seq) = some seq := by
  have h264 : (2 : Nat) ^ (8 * sizeof_size_t) = 2 ^ 64 := rfl
  have h256 : (256 : Nat) ^ sizeof_size_t = 2 ^ 64 := by decide
  have hsize64 : seq.length * vb < 2 ^ 64 := by omega
  have hmax : ¬ vectorMaxSize vb < seq.length :=
    Nat.not_lt.mpr (le_vectorMaxSize_of_mul_lt vb seq.length hvb hsize)
  have hlen : seq.length < 2 ^ 64 := by
    calc seq.length = seq.length * 1 := (Nat.mul_one _).symm
      _ ≤ seq.length * vb := Nat.mul_le_mul_left _ hvb
      _ < 2 ^ 64 := hsize64
  have helems2 : ∀ x ∈ seq, x < 256 ^ vb := by
    intro x hx
    have := helems x hx
    rwa [pow_mul] at this
  have hbody : (bytesOfVector bigEndian vb seq).take ((seq.length * vb) % 2 ^ (8 * sizeof_size_t))
      = bytesOfVector bigEndian vb seq := by
    rw [h264, Nat.mod_eq_of_lt hsize64]
    exact List.take_of_length_le (by rw [bytesOfVector_length])
  have hhdr := objectBytes_length bigEndian sizeof_size_t (seq.length % 2 ^ (8 * sizeof_size_t))
  unfold readBinarySequence writeBinarySequence streamRead
  simp only [hbody]
  rw [List.take_left' hhdr, List.drop_left' hhdr, hhdr]
  have hdrop : (objectBytes bigEndian sizeof_size_t 0).drop sizeof_size_t = [] :=
    List.drop_of_length_le (by rw [objectBytes_length])
  rw [hdrop, List.append_nil, objectValue_objectBytes, h264, h256, Nat.mod_mod,
    Nat.mod_eq_of_lt hlen, Nat.mod_eq_of_lt hsize64, if_neg hmax]
  have htake : (bytesOfVector bigEndian vb seq).take (seq.length * vb)
      = bytesOfVector bigEndian vb seq :=
    List.take_of_length_le (by rw [bytesOfVector_length])
  rw [htake]
  have hdrop2 : (bytesOfVector bigEndian vb (List.replicate seq.length 0)).drop
      (bytesOfVector bigEndian vb seq).length = [] :=
    List.drop_of_length_le (by simp [bytesOfVector_length])
  rw [hdrop2]
  exact congrArg some (vectorOfBytes_bytesOfVector bigEndian vb seq [] helems2)

theorem readBinarySequence_writeBinarySequence_witness :
    writeBinarySequence false 4 [5, 3, 9, 1]
      = [4, 0, 0, 0, 0, 0, 0, 0, 5, 0, 0, 0, 3, 0, 0, 0, 9, 0, 0, 0, 1, 0, 0, 0] ∧
    readBinarySequence false 4 (writeBinarySequence false 4 [5, 3, 9, 1]) = some [5, 3, 9, 1] ∧
    readBinarySequence true 8 (writeBinarySequence true 8 []) = some [] :=
  ⟨by decide,
    readBinarySequence_writeBinarySequence false 4 [5, 3, 9, 1] (by decide) (by decide)
      (by decide),
    readBinarySequence_writeBinarySequence true 8 [] (by decide) (by decide) (by decide)⟩

end Sheep

namespace Sheep

/-! ## Text sequence files -/

theorem digitChar_facts (d : Nat) (h : d < 10) :
    (digitChar d).isDigit = true ∧ (digitChar d).toNat - 48 = d ∧
    isSpace (digitChar d) = false ∧ digitChar d ≠ '-' ∧ digitChar d ≠ '+' := by
  interval_cases d <;> decide

/-- The digits written for `n`: a non-empty list of digits whose value is `n`. -/
theorem decimalFuel_digits (fuel n : Nat) (h : n < fuel) :
    ∃ ds : List Nat, ds ≠ [] ∧ (∀ d ∈ ds, d < 10) ∧
      decimalFuel fuel n = ds.map digitChar ∧
      ds.foldl (fun acc d => 10 * acc + d) 0 = n := by
  induction fuel generalizing n with
  | zero => omega
  | succ fuel ih =>
    unfold decimalFuel
    by_cases hn : n < 10
    · refine ⟨[n], by simp, by simpa using hn, by simp [hn], by simp⟩
    · obtain ⟨ds, _, h2, h3, h4⟩ := ih (n / 10) (by omega)
      refine ⟨ds ++ [n % 10], by simp, ?_, ?_, ?_⟩
      · intro d hd
        rcases List.mem_append.mp hd with hd1 | hd1
        · exact h2 d hd1
        · have : d = n % 10 := by simpa using hd1
          omega
      · simp [hn, h3]
      · rw [List.foldl_append, h4]
        simp only [List.foldl_cons, List.foldl_nil]
        omega

theorem decimal_digits (n : Nat) :
    ∃ ds : List Nat, ds ≠ [] ∧ (∀ d ∈ ds, d < 10) ∧
      decimal n = ds.map digitChar ∧
      ds.foldl (fun acc d => 10 * acc + d) 0 = n :=
  decimalFuel_digits (n + 1) n (by omega)

theorem takeWhile_dropWhile_digits (ds : List Nat) (hds : ∀ d ∈ ds, d < 10) (rest : List Char) :
    (ds.map digitChar ++ '\n' :: rest).takeWhile Char.isDigit = ds.map digitChar ∧
    (ds.map digitChar ++ '\n' :: rest).dropWhile Char.isDigit = '\n' :: rest := by
  induction ds with
  | nil =>
    have : Char.isDigit '\n' = false := by decide
    simp [List.takeWhile_cons, List.dropWhile_cons, this]
  | cons d ds ih =>
    have hd := (digitChar_facts d (hds d (List.mem_cons_self _ _))).1
    have ih2 := ih (fun x hx => hds x (List.mem_cons_of_mem _ hx))
    simp only [List.map_cons, List.cons_append, List.takeWhile_cons, List.dropWhile_cons, hd,
      if_true, ih2.1, ih2.2, and_self]

theorem foldl_digitChar (ds : List Nat) (hds : ∀ d ∈ ds, d < 10) (acc : Nat) :
    (ds.map digitChar).foldl (fun acc c => 10 * acc + (c.toNat - 48)) acc
      = ds.foldl (fun acc d => 10 * acc + d) acc := by
  induction ds generalizing acc with
  | nil => rfl
  | cons d ds ih =>
    simp only [List.map_cons, List.foldl_cons]
    rw [(digitChar_facts d (hds d (List.mem_cons_self _ _))).2.1]
    exact ih (fun x hx => hds x (List.mem_cons_of_mem _ hx)) _

/-- Extracting from a stream that starts with the digits of `n` and a newline
gives `n` and leaves the newline. -/
theorem extractUnsigned_decimal (w n : Nat) (hn : n < 2 ^ w) (rest : List Char) :
    extractUnsigned w (decimal n ++ '\n' :: rest) = some (n, '\n' :: rest) := by
  obtain ⟨ds, h1, h2, h3, h4⟩ := decimal_digits n
  rw [h3]
  obtain ⟨d, ds2, rfl⟩ := List.exists_cons_of_ne_nil h1
  have hd := digitChar_facts d (h2 d (List.mem_cons_self _ _))
  have htd := takeWhile_dropWhile_digits (d :: ds2) h2 rest
  have hfold := foldl_digitChar (d :: ds2) h2 0
  simp only [List.map_cons, List.cons_append] at htd hfold ⊢
  unfold extractUnsigned
  have hdrop : (digitChar d :: (ds2.map digitChar ++ '\n' :: rest)).dropWhile isSpace
      = digitChar d :: (ds2.map digitChar ++ '\n' :: rest) := by
    simp [List.dropWhile_cons, hd.2.2.1]
  have hminus : ¬ (some (digitChar d) = some '-') := fun e => hd.2.2.2.1 (Option.some.inj e)
  have hplus : ¬ (some (digitChar d) = some '+') := fun e => hd.2.2.2.2 (Option.some.inj e)
  simp only [hdrop, List.head?_cons, hminus, hplus, or_self, if_false, htd.1, htd.2,
    decide_False]
  rw [if_neg (by simp), hfold, h4, if_pos hn]
  simp

theorem extractUnsigned_newline (w : Nat) (stream : List Char) :
    extractUnsigned w ('\n' :: stream) = extractUnsigned w stream := by
  have h : isSpace '\n' = true := by decide
  unfold extractUnsigned
  simp only [List.dropWhile_cons, h, if_true]

theorem extractUnsigned_nil (w : Nat) : extractUnsigned w [] = none := by
  simp [extractUnsigned]

theorem readTextLoop_newline (w fuel : Nat) (stream : List Char) :
    readTextLoop w fuel ('\n' :: stream) = readTextLoop w fuel stream := by
  cases fuel with
  | zero => rfl
  | succ f => simp only [readTextLoop, extractUnsigned_newline]

theorem writeTextSequence_cons (X : Nat) (seq : List Nat) :
    writeTextSequence (X :: seq) = decimal X ++ '\n' :: writeTextSequence seq := by
  simp [writeTextSequence]

theorem readTextLoop_writeTextSequence (w : Nat) (seq : List Nat)
    (h : ∀ x ∈ seq, x < 2 ^ w) (fuel : Nat) (hfuel : seq.length ≤ fuel) :
    readTextLoop w fuel (writeTextSequence seq) = seq := by
  induction seq generalizing fuel with
  | nil =>
    cases fuel with
    | zero => rfl
    | succ f =>
      have e : writeTextSequence [] = [] := rfl
      simp only [readTextLoop, e, extractUnsigned_nil]
  | cons x xs ih =>
    cases fuel with
    | zero => simp at hfuel
    | succ f =>
      rw [writeTextSequence_cons]
      simp only [readTextLoop, extractUnsigned_decimal w x (h x (List.mem_cons_self _ _))]
      rw [readTextLoop_newline, ih (fun y hy => h y (List.mem_cons_of_mem _ hy)) f
        (by simpa using hfuel)]

theorem length_le_writeTextSequence (seq : List Nat) :
    seq.length ≤ (writeTextSequence seq).length := by
  induction seq with
  | nil => simp
  | cons x xs ih =>
    rw [writeTextSequence_cons]
    simp only [List.length_append, List.length_cons]
    omega

/-- C4: `readTextSequence` applied to the text that `writeTextSequence` wrote
for a sequence of vertex ids of the configured width returns that sequence,
element for element and in the same order; the empty sequence included. -/
theorem readTextSequence_writeTextSequence (w : Nat) (seq : List Nat)
    (h : ∀ x ∈ seq, x < 2 ^ w) :
    readTextSequence w (writeTextSequence seq) = seq :=
  readTextLoop_writeTextSequence w seq h _ (length_le_writeTextSequence seq)

theorem readTextSequence_writeTextSequence_witness :
    writeTextSequence [5, 30, 0] = ['5', '\n', '3', '0', '\n', '0', '\n'] ∧
    readTextSequence 32 (writeTextSequence [5, 30, 0]) = [5, 30, 0] ∧
    readTextSequence 32 (writeTextSequence []) = [] :=
  ⟨by decide,
    readTextSequence_writeTextSequence 32 [5, 30, 0] (by decide),
    readTextSequence_writeTextSequence 32 [] (by decide)⟩

end Sheep

namespace Sheep

/-! ## Loop bounds of the embedding -/

/-- A successful extraction consumes at least one character. -/
theorem extractUnsigned_length_lt (w : Nat) (stream rest : List Char) (x : Nat)
    (h : extractUnsigned w stream = some (x, rest)) : rest.length < stream.length := by
  unfold extractUnsigned at h
  simp only at h
  generalize hs : stream.dropWhile isSpace = s at h
  generalize hb : (if s.head? = some '-' ∨ s.head? = some '+' then s.tail else s) = body at h
  have h1 : s.length ≤ stream.length := by
    rw [← hs]; exact (List.dropWhile_sublist _).length_le
  have h2 : body.length ≤ s.length := by
    rw [← hb]
    split
    · simp
    · exact Nat.le_refl _
  have h3 : (body.takeWhile Char.isDigit).length + (body.dropWhile Char.isDigit).length
      = body.length := by
    rw [← List.length_append, List.takeWhile_append_dropWhile]
  split at h
  · exact absurd h (by simp)
  · rename_i hne
    split at h
    · have e := (Prod.mk.inj (Option.some.inj h)).2
      have hpos : 0 < (body.takeWhile Char.isDigit).length := List.length_pos.mpr hne
      rw [← e]
      omega
    · exact absurd h (by simp)

theorem readTextLoop_succ (w : Nat) (fuel : Nat) (stream : List Char)
    (h : stream.length ≤ fuel) :
    readTextLoop w (fuel + 1) stream = readTextLoop w fuel stream := by
  induction fuel generalizing stream with
  | zero =>
    have : stream = [] := List.length_eq_zero.mp (by omega)
    subst this
    simp [readTextLoop, extractUnsigned_nil]
  | succ f ih =>
    rw [readTextLoop, readTextLoop]
    cases hx : extractUnsigned w stream with
    | none => rfl
    | some p =>
      obtain ⟨x, rest⟩ := p
      have := extractUnsigned_length_lt w stream rest x hx
      simp only
      rw [ih rest (by omega)]

/-- The bound of `readTextSequence` never cuts the loop short: more iterations
read the same sequence. -/
theorem readTextLoop_fuel (w : Nat) (stream : List Char) (extra : Nat) :
    readTextLoop w (stream.length + extra) stream = readTextSequence w stream := by
  induction extra with
  | zero => rfl
  | succ k ih =>
    rw [← Nat.add_assoc, readTextLoop_succ w _ stream (by omega), ih]

/-- The degree vector of a completed scan is shorter than `2 ^ w`, so the
`vid_t` counter of the extraction loop reaches `degree.size()`. -/
theorem scanEdges_length_lt (w : Nat) (edges : List (Nat × Nat)) (d : List Nat)
    (h : scanEdges w edges = some d) : d.length < 2 ^ w := by
  have key : ∀ (es : List (Nat × Nat)) (d0 d1 : List Nat), d0.length < 2 ^ w →
      es.foldlM (recordEdge w) d0 = some d1 → d1.length < 2 ^ w := by
    intro es
    induction es with
    | nil =>
      intro d0 d1 h0 h1
      have : d0 = d1 := Option.some.inj h1
      rw [← this]; exact h0
    | cons x xs ih =>
      intro d0 d1 h0 h1
      rw [List.foldlM_cons] at h1
      cases hx : recordEdge w d0 x with
      | none => rw [hx] at h1; exact absurd h1 (by simp)
      | some d2 =>
        rw [hx] at h1
        exact ih d2 d1 (recordEdge_length_lt w d0 d2 x h0 hx) h1
  exact key edges [] d (Nat.pow_pos (by decide)) h

end Sheep

namespace Sheep

/-! ## The reduced degree array of `mpiSequence` -/

/-- C11 fails at the index `max_vid`: with a single participant holding the
graph with degrees `{0:2, 1:1, 2:1}` the local array is `[2, 1, 1]`, the
sum-reduction is called with the count `max_vid = 2` and leaves the slot `2`
at zero, so the array used afterwards is `[2, 1, 0]` and not the global
degrees, and the returned sequence `[1, 0]` lacks vertex `2`, whose global
degree is `1`. -/
theorem mpiSequence_reduction_misses_max_vid :
    MPI_Allreduce_MAX ([smallGraph].map (fun g => g.getMaxVid)) = 2 ∧
    fillLocalDegree 32 smallGraph (List.replicate 3 0) = some [2, 1, 1] ∧
    MPI_Allreduce_SUM 32 2 [[2, 1, 1]] (List.replicate 3 0) = some [2, 1, 0] ∧
    smallGraph.getDeg 2 = 1 ∧
    mpiSequence 32 32 [smallGraph] 0 = some [1, 0] ∧
    mpiSequence 64 64 [smallGraph] 0 = some [1, 0] := by
  decide

/-- C18 fails at the largest representable id: when the reduced `max_vid` is
the largest `vid_t` value, `max_vid + 1` wraps to zero, both dense arrays are
created with length zero, and the writes `local_degree[*nitr]` for the vertices
that the rank enumerates are out of bounds, although `getMaxVid()` bounds
every enumerated id. -/
theorem mpiSequence_largest_max_vid_out_of_bounds :
    (∀ v ∈ topIdGraph64.nodes, v ≤ topIdGraph64.getMaxVid) ∧
    (MPI_Allreduce_MAX ([topIdGraph64].map (fun g => g.getMaxVid)) + 1) % 2 ^ 64 = 0 ∧
    fillLocalDegree 64 topIdGraph64 (List.replicate 0 0) = none ∧
    mpiSequence 64 64 [topIdGraph64] 0 = none ∧
    (∀ v ∈ topIdGraph32.nodes, v ≤ topIdGraph32.getMaxVid) ∧
    (MPI_Allreduce_MAX ([topIdGraph32].map (fun g => g.getMaxVid)) + 1) % 2 ^ 32 = 0 ∧
    mpiSequence 32 32 [topIdGraph32] 0 = none := by
  decide

end Sheep

namespace Sheep

/-! ## Uniqueness of the degree order -/

instance degreeOrdered_trans (deg : Nat → Nat) : IsTrans Nat (DegreeOrdered deg) :=
  ⟨fun a b c => by
    unfold DegreeOrdered
    omega⟩

instance degreeOrdered_antisymm (deg : Nat → Nat) : IsAntisymm Nat (DegreeOrdered deg) :=
  ⟨fun a b => by
    unfold DegreeOrdered
    omega⟩

/-- Two sequences with the same elements that are both ascending in
(degree, id) are equal. -/
theorem degreeOrdered_unique (deg : Nat → Nat) (l₁ l₂ : List Nat)
    (h₁ : l₁.Nodup) (h₂ : l₂.Nodup) (hmem : ∀ v, v ∈ l₁ ↔ v ∈ l₂)
    (c₁ : l₁.Chain' (DegreeOrdered deg)) (c₂ : l₂.Chain' (DegreeOrdered deg)) : l₁ = l₂ :=
  List.eq_of_perm_of_sorted ((List.perm_ext_iff_of_nodup h₁ h₂).mpr hmem)
    (List.chain'_iff_pairwise.mp c₁) (List.chain'_iff_pairwise.mp c₂)

theorem degreeSequence_chain (graph : Graph) (h : graph.nodes.Nodup) :
    (degreeSequence graph).Chain' (DegreeOrdered graph.getDeg) := by
  unfold degreeSequence
  exact parallelSort_chain graph.getDeg _ (by rw [defaultSequence_eq]; exact h)

/-- C16: for a fixed degree function, two duplicate-free sequences over the
same vertex set that are both ascending in (degree, id) on adjacent pairs are
equal; so whatever a correct sorting routine returns is `degreeSequence`, and
`degreeSequence` is the same for two graphs with the same vertex set and the
same degrees that enumerate their vertices in different orders. -/
theorem degreeSequence_unique (g₁ g₂ : Graph)
    (hn₁ : g₁.nodes.Nodup) (hn₂ : g₂.nodes.Nodup)
    (h₁₂ : ∀ v ∈ g₁.nodes, v ∈ g₂.nodes) (h₂₁ : ∀ v ∈ g₂.nodes, v ∈ g₁.nodes)
    (hdeg : ∀ v ∈ g₁.nodes, g₁.getDeg v = g₂.getDeg v) :
    (∀ l₁ l₂ : List Nat, l₁.Nodup → l₂.Nodup → (∀ v, v ∈ l₁ ↔ v ∈ l₂) →
      l₁.Chain' (DegreeOrdered g₁.getDeg) → l₂.Chain' (DegreeOrdered g₁.getDeg) → l₁ = l₂) ∧
    (∀ l : List Nat, l.Perm g₁.nodes → l.Chain' (DegreeOrdered g₁.getDeg) →
      l = degreeSequence g₁) ∧
    degreeSequence g₁ = degreeSequence g₂ := by
  have hd₁ := (degreeSequence_perm g₁).nodup_iff.mpr hn₁
  have hd₂ := (degreeSequence_perm g₂).nodup_iff.mpr hn₂
  refine ⟨degreeOrdered_unique g₁.getDeg, ?_, ?_⟩
  · intro l hl hc
    refine degreeOrdered_unique g₁.getDeg l (degreeSequence g₁) (hl.nodup_iff.mpr hn₁) hd₁ ?_ hc
      (degreeSequence_chain g₁ hn₁)
    intro v
    rw [hl.mem_iff, (degreeSequence_perm g₁).mem_iff]
  · refine degreeOrdered_unique g₁.getDeg _ _ hd₁ hd₂ ?_ (degreeSequence_chain g₁ hn₁) ?_
    · intro v
      rw [(degreeSequence_perm g₁).mem_iff, (degreeSequence_perm g₂).mem_iff]
      exact ⟨h₁₂ v, h₂₁ v⟩
    · have hp := List.chain'_iff_pairwise.mp (degreeSequence_chain g₂ hn₂)
      refine List.Pairwise.chain' (List.Pairwise.imp_of_mem ?_ hp)
      intro a b ha hb hab
      have ha1 := h₂₁ a ((degreeSequence_perm g₂).mem_iff.mp ha)
      have hb1 := h₂₁ b ((degreeSequence_perm g₂).mem_iff.mp hb)
      unfold DegreeOrdered at hab ⊢
      rw [hdeg a ha1, hdeg b hb1]
      exact hab

theorem degreeSequence_unique_witness :
    smallGraph.nodes = [0, 1, 2] ∧ smallGraphReordered.nodes = [2, 0, 1] ∧
    degreeSequence smallGraphReordered = [1, 2, 0] ∧
    ((∀ l₁ l₂ : List Nat, l₁.Nodup → l₂.Nodup → (∀ v, v ∈ l₁ ↔ v ∈ l₂) →
      l₁.Chain' (DegreeOrdered smallGraph.getDeg) →
      l₂.Chain' (DegreeOrdered smallGraph.getDeg) → l₁ = l₂) ∧
    (∀ l : List Nat, l.Perm smallGraph.nodes → l.Chain' (DegreeOrdered smallGraph.getDeg) →
      l = degreeSequence smallGraph) ∧
    degreeSequence smallGraph = degreeSequence smallGraphReordered) :=
  ⟨by decide, by decide, by decide,
    degreeSequence_unique smallGraph smallGraphReordered (by decide) (by decide) (by decide)
      (by decide) (by decide)⟩

end Sheep

namespace Sheep

/-! ## Length of the sequences -/

theorem requiredLength_cons (e : Nat × Nat) (es : List (Nat × Nat)) :
    requiredLength (e :: es) = max (max e.1 e.2 + 1) (requiredLength es) := rfl

theorem largestEndpoint_cons (e : Nat × Nat) (es : List (Nat × Nat)) :
    largestEndpoint (e :: es) = max (max e.1 e.2) (largestEndpoint es) := rfl

/-- For a non-empty edge list the growth steps ask for the largest endpoint
plus one. -/
theorem requiredLength_eq (edges : List (Nat × Nat)) (h : edges ≠ []) :
    requiredLength edges = largestEndpoint edges + 1 := by
  induction edges with
  | nil => exact absurd rfl h
  | cons e es ih =>
    rw [requiredLength_cons, largestEndpoint_cons]
    cases es with
    | nil =>
      have h1 : requiredLength [] = 0 := rfl
      have h2 : largestEndpoint [] = 0 := rfl
      rw [h1, h2]
      omega
    | cons x xs =>
      rw [ih (by simp)]
      omega

theorem nonzeroIndices_length_le (n : Nat) (degree : List Nat) :
    (nonzeroIndices n degree).length ≤ n := by
  unfold nonzeroIndices
  calc ((List.range n).filter _).length ≤ (List.range n).length := List.length_filter_le _ _
    _ = n := List.length_range n

theorem parallelSort_length (comp : Nat → Nat → Bool) (seq : List Nat) :
    (parallelSort comp seq).length = seq.length :=
  (parallelSort_perm comp seq).length_eq

/-- The sequence of `fileSequence_template` is no longer than the degree
vector, whose length is the largest `max(X,Y) + 1`. -/
theorem fileSequence_template_length_le (w : Nat) (reader : List Char → List (Nat × Nat))
    (filename : List Char) (seq : List Nat)
    (h : fileSequence_template w reader filename = some seq) :
    seq.length ≤ requiredLength (reader filename) := by
  unfold fileSequence_template at h
  cases hs : scanEdges w (reader filename) with
  | none => rw [hs] at h; exact absurd h (by simp)
  | some d =>
    rw [hs] at h
    have hseq := Option.some.inj h
    obtain ⟨d2, h1, h2, _⟩ := scanEdges_spec w (reader filename)
      ((scanEdges_isSome_iff w _).mp ⟨d, hs⟩)
    rw [hs] at h1
    have hd : d = d2 := Option.some.inj h1
    rw [← hseq, parallelSort_length, ← h2, ← hd]
    exact nonzeroIndices_length_le _ _

/-- The sequence of `mpiSequence` is no longer than `max_vid + 1`. -/
theorem mpiSequence_length_le (w we : Nat) (graphs : List Graph) (rank : Nat) (seq : List Nat)
    (h : mpiSequence w we graphs rank = some seq) :
    seq.length ≤ MPI_Allreduce_MAX (graphs.map (fun g => g.getMaxVid)) + 1 := by
  unfold mpiSequence at h
  generalize MPI_Allreduce_MAX (graphs.map (fun g => g.getMaxVid)) = max_vid at h ⊢
  split at h
  · exact absurd h (by simp)
  · simp only at h
    split at h
    · exact absurd h (by simp)
    · split at h
      · exact absurd h (by simp)
      · split at h
        · exact absurd h (by simp)
        · have hseq := Option.some.inj h
          rw [← hseq, parallelSort_length]
          exact le_trans (nonzeroIndices_length_le _ _) (Nat.mod_le _ _)

/-- C15: a sequence returned by `fileSequence_template` on a non-empty edge
list is no longer than the largest vertex id seen in any edge plus one, and a
sequence returned by `mpiSequence` is no longer than `max_vid + 1`. -/
theorem sequence_length_le_max_id_succ (w we : Nat) (reader : List Char → List (Nat × Nat))
    (filename : List Char) (graphs : List Graph) (rank : Nat) :
    (∀ seq, fileSequence_template w reader filename = some seq → reader filename ≠ [] →
      seq.length ≤ largestEndpoint (reader filename) + 1) ∧
    (∀ seq, mpiSequence w we graphs rank = some seq →
      seq.length ≤ MPI_Allreduce_MAX (graphs.map (fun g => g.getMaxVid)) + 1) := by
  refine ⟨?_, mpiSequence_length_le w we graphs rank⟩
  intro seq h hne
  rw [← requiredLength_eq _ hne]
  exact fileSequence_template_length_le w reader filename seq h

theorem sequence_length_le_max_id_succ_witness :
    fileSequence_template 32 (fun _ => [(3, 3), (3, 4)]) [] = some [4, 3] ∧
    largestEndpoint [(3, 3), (3, 4)] = 4 ∧
    [4, 3].length ≤ largestEndpoint [(3, 3), (3, 4)] + 1 ∧
    mpiSequence 32 32 [smallGraph, pathGraphTail] 0 = some [1, 0, 2] ∧
    [1, 0, 2].length ≤
      MPI_Allreduce_MAX ([smallGraph, pathGraphTail].map (fun g => g.getMaxVid)) + 1 :=
  ⟨by decide, by decide,
    (sequence_length_le_max_id_succ 32 32 (fun _ => [(3, 3), (3, 4)]) []
      [smallGraph, pathGraphTail] 0).1 [4, 3] (by decide) (by decide),
    by decide,
    (sequence_length_le_max_id_succ 32 32 (fun _ => [(3, 3), (3, 4)]) []
      [smallGraph, pathGraphTail] 0).2 [1, 0, 2] (by decide)⟩

end Sheep

namespace Sheep

/-! ## Layout of a binary sequence file -/

theorem toBytesLE_zero (n : Nat) : toBytesLE n 0 = List.replicate n 0 := by
  induction n with
  | zero => rfl
  | succ n ih => simp [toBytesLE, ih, List.replicate_succ]

theorem objectBytes_zero (bigEndian : Bool) (n : Nat) :
    objectBytes bigEndian n 0 = List.replicate n 0 := by
  unfold objectBytes
  cases bigEndian <;> simp [toBytesLE_zero]

/-- C12: `writeBinarySequence` writes the count as eight native-endian bytes
followed by the elements in order, each as `sizeof(vid_t)` native-endian
bytes, and nothing else: `8 + |S| * sizeof(vid_t)` bytes in all; for the empty
sequence these are eight zero bytes. -/
theorem writeBinarySequence_layout (bigEndian : Bool) (vb : Nat) (seq : List Nat)
    (hlen : seq.length < 2 ^ 64) (hsize : seq.length * vb < 2 ^ 64) :
    writeBinarySequence bigEndian vb seq
      = objectBytes bigEndian 8 seq.length ++ seq.flatMap (objectBytes bigEndian vb) ∧
    (writeBinarySequence bigEndian vb seq).length = 8 + seq.length * vb ∧
    (objectBytes bigEndian 8 seq.length).length = 8 ∧
    objectValue bigEndian ((writeBinarySequence bigEndian vb seq).take 8) = seq.length ∧
    (∀ x ∈ seq, (objectBytes bigEndian vb x).length = vb ∧
      objectValue bigEndian (objectBytes bigEndian vb x) = x % 2 ^ (8 * vb)) ∧
    writeBinarySequence bigEndian vb [] = List.replicate 8 0 := by
  have h264 : (2 : Nat) ^ (8 * sizeof_size_t) = 2 ^ 64 := rfl
  have h256 : (256 : Nat) ^ 8 = 2 ^ 64 := by decide
  have hw : writeBinarySequence bigEndian vb seq
      = objectBytes bigEndian 8 seq.length ++ seq.flatMap (objectBytes bigEndian vb) := by
    unfold writeBinarySequence
    simp only [h264, Nat.mod_eq_of_lt hlen, Nat.mod_eq_of_lt hsize]
    rw [List.take_of_length_le (by rw [bytesOfVector_length])]
    rfl
  have h8 := objectBytes_length bigEndian 8 seq.length
  refine ⟨hw, ?_, h8, ?_, ?_, ?_⟩
  · rw [hw, List.length_append, h8]
    have := bytesOfVector_length bigEndian vb seq
    unfold bytesOfVector at this
    rw [this]
  · rw [hw, List.take_left' h8, objectValue_objectBytes, h256, Nat.mod_eq_of_lt hlen]
  · intro x _
    refine ⟨objectBytes_length bigEndian vb x, ?_⟩
    rw [objectValue_objectBytes, pow_mul]
    rfl
  · unfold writeBinarySequence
    have e1 : ([] : List Nat).length % 2 ^ (8 * sizeof_size_t) = 0 := rfl
    have e2 : (bytesOfVector bigEndian vb []) = [] := rfl
    rw [e1, e2, List.take_nil, List.append_nil]
    exact objectBytes_zero bigEndian sizeof_size_t

theorem writeBinarySequence_layout_witness :
    writeBinarySequence false 4 [5, 3, 9, 1]
      = [4, 0, 0, 0, 0, 0, 0, 0] ++ [5, 0, 0, 0, 3, 0, 0, 0, 9, 0, 0, 0, 1, 0, 0, 0] ∧
    writeBinarySequence true 4 [5, 3]
      = [0, 0, 0, 0, 0, 0, 0, 2] ++ [0, 0, 0, 5, 0, 0, 0, 3] ∧
    (writeBinarySequence false 4 [5, 3, 9, 1]
        = objectBytes false 8 [5, 3, 9, 1].length ++ [5, 3, 9, 1].flatMap (objectBytes false 4) ∧
      (writeBinarySequence false 4 [5, 3, 9, 1]).length = 8 + [5, 3, 9, 1].length * 4 ∧
      (objectBytes false 8 [5, 3, 9, 1].length).length = 8 ∧
      objectValue false ((writeBinarySequence false 4 [5, 3, 9, 1]).take 8)
        = [5, 3, 9, 1].length ∧
      (∀ x ∈ [5, 3, 9, 1], (objectBytes false 4 x).length = 4 ∧
        objectValue false (objectBytes false 4 x) = x % 2 ^ (8 * 4)) ∧
      writeBinarySequence false 4 [] = List.replicate 8 0) :=
  ⟨by decide, by decide,
    writeBinarySequence_layout false 4 [5, 3, 9, 1] (by decide) (by decide)⟩

end Sheep

namespace Sheep

/-! ## Truncated binary sequence files -/

end Sheep

namespace Sheep

/-! ## Layout of a text sequence file -/

theorem digitChar_eq (d : Nat) (h : d < 10) :
    digitChar d = Nat.digitChar d ∧ digitChar d ≠ '\n' ∧ (digitChar d = '0' → d = 0) := by
  interval_cases d <;> decide

theorem toDigitsCore_eq (fuel n : Nat) (ds : List Char) (h : n < fuel) :
    Nat.toDigitsCore 10 fuel n ds = decimalFuel fuel n ++ ds := by
  induction fuel generalizing n ds with
  | zero => omega
  | succ fuel ih =>
    unfold Nat.toDigitsCore decimalFuel
    have hd := (digitChar_eq (n % 10) (Nat.mod_lt _ (by decide))).1
    by_cases hn : n < 10
    · have h0 : n / 10 = 0 := by omega
      have h1 : n % 10 = n := by omega
      rw [h1] at hd
      simp only [h0, if_true, hn, h1, List.singleton_append, hd]
    · have h0 : ¬ n / 10 = 0 := by omega
      simp only [h0, if_false, hn]
      rw [ih (n / 10) _ (by omega), ← hd, List.append_assoc, List.singleton_append]

/-- The digits written for `X` are the standard decimal numeral of `X`. -/
theorem decimal_eq_toDigits (n : Nat) : decimal n = Nat.toDigits 10 n := by
  unfold decimal Nat.toDigits
  rw [toDigitsCore_eq (n + 1) n [] (by omega), List.append_nil]

/-- The numeral of a nonzero number does not start with the digit zero. -/
theorem decimalFuel_head (fuel n : Nat) (h : n < fuel) (hn : n ≠ 0) :
    (decimalFuel fuel n).head? ≠ some '0' := by
  induction fuel generalizing n with
  | zero => omega
  | succ fuel ih =>
    unfold decimalFuel
    by_cases h10 : n < 10
    · simp only [h10, if_true, List.head?_cons]
      intro e
      exact hn ((digitChar_eq n h10).2.2 (Option.some.inj e))
    · simp only [h10, if_false]
      have hne := ih (n / 10) (by omega) (by omega)
      cases hl : decimalFuel fuel (n / 10) with
      | nil =>
        obtain ⟨ds, hds, _, hmap, _⟩ := decimalFuel_digits fuel (n / 10) (by omega)
        rw [hl] at hmap
        cases ds with
        | nil => exact absurd rfl hds
        | cons d ds => simp at hmap
      | cons c cs =>
        rw [hl] at hne
        simpa using hne

theorem textLines_append_newline (line rest : List Char) (h : ∀ c ∈ line, c ≠ '\n') :
    textLines (line ++ '\n' :: rest) = line :: textLines rest := by
  induction line with
  | nil => simp [textLines]
  | cons c cs ih =>
    have hc : c ≠ '\n' := h c (List.mem_cons_self _ _)
    have ih2 := ih (fun x hx => h x (List.mem_cons_of_mem _ hx))
    unfold textLines at ih2 ⊢
    rw [List.cons_append, List.foldr_cons, ih2]
    simp [hc]

theorem decimal_no_newline (n : Nat) : ∀ c ∈ decimal n, c ≠ '\n' := by
  obtain ⟨ds, _, h2, h3, _⟩ := decimal_digits n
  intro c hc
  rw [h3] at hc
  obtain ⟨d, hd, rfl⟩ := List.mem_map.mp hc
  exact (digitChar_eq d (h2 d hd)).2.1

theorem textLines_writeTextSequence (seq : List Nat) :
    textLines (writeTextSequence seq) = seq.map decimal := by
  induction seq with
  | nil => rfl
  | cons x xs ih =>
    rw [writeTextSequence_cons, textLines_append_newline _ _ (decimal_no_newline x), ih,
      List.map_cons]

/-- C13: `writeTextSequence` writes, in sequence order, the decimal numeral of
each element (digits only, no sign, no leading zero, no separator) followed by
one newline; the output has `|S|` lines, line `i` is the numeral of `S[i]`;
the empty sequence gives an empty file. -/
theorem writeTextSequence_layout (seq : List Nat) :
    writeTextSequence seq = (seq.map (fun X => decimal X ++ ['\n'])).flatten ∧
    textLines (writeTextSequence seq) = seq.map decimal ∧
    (textLines (writeTextSequence seq)).length = seq.length ∧
    (∀ i : Nat, (textLines (writeTextSequence seq))[i]? = (seq[i]?).map decimal) ∧
    (∀ X, decimal X = Nat.toDigits 10 X ∧
      (∀ c ∈ decimal X, c.isDigit = true) ∧
      (X ≠ 0 → (decimal X).head? ≠ some '0') ∧
      (decimal X).foldl (fun acc c => 10 * acc + (c.toNat - 48)) 0 = X) ∧
    decimal 0 = ['0'] ∧
    writeTextSequence [] = [] ∧
    writeTextSequence [5, 30, 0] = ['5', '\n', '3', '0', '\n', '0', '\n'] := by
  have hl := textLines_writeTextSequence seq
  refine ⟨?_, hl, by rw [hl, List.length_map], ?_, ?_, by decide, rfl, by decide⟩
  · unfold writeTextSequence
    rw [List.flatMap_def]
  · intro i
    rw [hl, List.getElem?_map]
  · intro X
    obtain ⟨ds, _, h2, h3, h4⟩ := decimal_digits X
    refine ⟨decimal_eq_toDigits X, ?_, ?_, ?_⟩
    · intro c hc
      rw [h3] at hc
      obtain ⟨d, hd, rfl⟩ := List.mem_map.mp hc
      exact (digitChar_facts d (h2 d hd)).1
    · intro hX
      exact decimalFuel_head (X + 1) X (by omega) hX
    · rw [h3, foldl_digitChar ds h2 0, h4]

end Sheep

namespace Sheep

/-! ## The edge list as an undirected multiset -/

theorem endpointCount_cons (v : Nat) (e : Nat × Nat) (es : List (Nat × Nat)) :
    endpointCount v (e :: es)
      = ((if e.1 = v then 1 else 0) + (if e.2 = v then 1 else 0)) + endpointCount v es := by
  simp [endpointCount]

theorem requiredLength_lt_iff (edges : List (Nat × Nat)) (n : Nat) (hn : 0 < n) :
    requiredLength edges < n ↔ ∀ e ∈ edges, max e.1 e.2 + 1 < n := by
  induction edges with
  | nil => simpa [requiredLength] using hn
  | cons e es ih =>
    rw [requiredLength_cons]
    constructor
    · intro h x hx
      rcases List.mem_cons.mp hx with rfl | hx2
      · omega
      · exact ih.mp (by omega) x hx2
    · intro h
      have h1 := h e (List.mem_cons_self _ _)
      have h2 := ih.mpr (fun x hx => h x (List.mem_cons_of_mem _ hx))
      omega

theorem list_eq_of_getD (l₁ l₂ : List Nat) (hlen : l₁.length = l₂.length)
    (h : ∀ v, l₁.getD v 0 = l₂.getD v 0) : l₁ = l₂ := by
  apply List.ext_getElem hlen
  intro i h1 h2
  have := h i
  rw [List.getD_eq_getElem _ _ h1, List.getD_eq_getElem _ _ h2] at this
  exact this

/-- The scan depends only on the length asked for and on the endpoint counts. -/
theorem scanEdges_congr (w : Nat) (e₁ e₂ : List (Nat × Nat))
    (hlen : requiredLength e₁ = requiredLength e₂)
    (hcnt : ∀ v, endpointCount v e₁ = endpointCount v e₂) :
    scanEdges w e₁ = scanEdges w e₂ := by
  have hpos : 0 < 2 ^ w := Nat.pow_pos (by decide)
  by_cases hg : requiredLength e₁ < 2 ^ w
  · obtain ⟨d₁, h1, h2, h3⟩ := scanEdges_spec w e₁ ((requiredLength_lt_iff e₁ _ hpos).mp hg)
    obtain ⟨d₂, k1, k2, k3⟩ := scanEdges_spec w e₂
      ((requiredLength_lt_iff e₂ _ hpos).mp (by rw [← hlen]; exact hg))
    rw [h1, k1]
    congr 1
    apply list_eq_of_getD
    · rw [h2, k2, hlen]
    · intro v
      rw [h3 v, k3 v, hcnt v]
  · have n₁ : scanEdges w e₁ = none := by
      cases hs : scanEdges w e₁ with
      | none => rfl
      | some d =>
        exact absurd ((requiredLength_lt_iff e₁ _ hpos).mpr
          ((scanEdges_isSome_iff w e₁).mp ⟨d, hs⟩)) hg
    have n₂ : scanEdges w e₂ = none := by
      cases hs : scanEdges w e₂ with
      | none => rfl
      | some d =>
        have := (requiredLength_lt_iff e₂ _ hpos).mpr ((scanEdges_isSome_iff w e₂).mp ⟨d, hs⟩)
        rw [← hlen] at this
        exact absurd this hg
    rw [n₁, n₂]

theorem requiredLength_perm (e₁ e₂ : List (Nat × Nat)) (h : e₁.Perm e₂) :
    requiredLength e₁ = requiredLength e₂ := by
  induction h with
  | nil => rfl
  | cons x _ ih => rw [requiredLength_cons, requiredLength_cons, ih]
  | swap x y l =>
    simp only [requiredLength_cons]
    omega
  | trans _ _ ih₁ ih₂ => rw [ih₁, ih₂]

theorem endpointCount_perm (v : Nat) (e₁ e₂ : List (Nat × Nat)) (h : e₁.Perm e₂) :
    endpointCount v e₁ = endpointCount v e₂ := by
  unfold endpointCount
  exact (h.map _).sum_eq

theorem requiredLength_flip (e₁ e₂ : List (Nat × Nat))
    (h : List.Forall₂ (fun a b => b = a ∨ b = (a.2, a.1)) e₁ e₂) :
    requiredLength e₁ = requiredLength e₂ := by
  induction h with
  | nil => rfl
  | cons hab _ ih =>
    rw [requiredLength_cons, requiredLength_cons, ih]
    rcases hab with rfl | rfl
    · rfl
    · simp only
      omega

theorem endpointCount_flip (v : Nat) (e₁ e₂ : List (Nat × Nat))
    (h : List.Forall₂ (fun a b => b = a ∨ b = (a.2, a.1)) e₁ e₂) :
    endpointCount v e₁ = endpointCount v e₂ := by
  induction h with
  | nil => rfl
  | cons hab _ ih =>
    rw [endpointCount_cons, endpointCount_cons, ih]
    rcases hab with rfl | rfl
    · rfl
    · simp only
      omega

theorem fileSequence_template_congr (w : Nat) (reader₁ reader₂ : List Char → List (Nat × Nat))
    (filename : List Char) (h : scanEdges w (reader₁ filename) = scanEdges w (reader₂ filename)) :
    fileSequence_template w reader₁ filename = fileSequence_template w reader₂ filename := by
  unfold fileSequence_template
  rw [h]

/-- C17: `fileSequence_template` treats the edges as an undirected multiset:
delivering the same edges in another order, or with any of them given as
`(Y, X)` instead of `(X, Y)`, leaves the returned sequence unchanged. -/
theorem fileSequence_template_undirected (w : Nat)
    (reader₁ reader₂ : List Char → List (Nat × Nat)) (filename : List Char) :
    ((reader₁ filename).Perm (reader₂ filename) →
      fileSequence_template w reader₁ filename = fileSequence_template w reader₂ filename) ∧
    (List.Forall₂ (fun a b => b = a ∨ b = (a.2, a.1)) (reader₁ filename) (reader₂ filename) →
      fileSequence_template w reader₁ filename = fileSequence_template w reader₂ filename) := by
  constructor
  · intro h
    exact fileSequence_template_congr w _ _ _
      (scanEdges_congr w _ _ (requiredLength_perm _ _ h) (fun v => endpointCount_perm v _ _ h))
  · intro h
    exact fileSequence_template_congr w _ _ _
      (scanEdges_congr w _ _ (requiredLength_flip _ _ h) (fun v => endpointCount_flip v _ _ h))

theorem fileSequence_template_undirected_witness :
    fileSequence_template 32 (fun _ => [(3, 3), (3, 4), (0, 4)]) [] = some [0, 4, 3] ∧
    fileSequence_template 32 (fun _ => [(3, 3), (3, 4), (0, 4)]) []
      = fileSequence_template 32 (fun _ => [(0, 4), (3, 3), (3, 4)]) [] ∧
    fileSequence_template 32 (fun _ => [(3, 3), (3, 4), (0, 4)]) []
      = fileSequence_template 32 (fun _ => [(3, 3), (4, 3), (0, 4)]) [] :=
  ⟨by decide,
    (fileSequence_template_undirected 32 (fun _ => [(3, 3), (3, 4), (0, 4)])
      (fun _ => [(0, 4), (3, 3), (3, 4)]) []).1 (by decide),
    (fileSequence_template_undirected 32 (fun _ => [(3, 3), (3, 4), (0, 4)])
      (fun _ => [(3, 3), (4, 3), (0, 4)]) []).2
      (List.Forall₂.cons (Or.inl rfl)
        (List.Forall₂.cons (Or.inr rfl) (List.Forall₂.cons (Or.inl rfl) List.Forall₂.nil)))⟩

end Sheep

namespace Sheep

theorem writeTextSequence_layout_witness :
    textLines (writeTextSequence [5, 30, 0]) = [['5'], ['3', '0'], ['0']] ∧
    (30 ≠ 0 ∧ (decimal 30).head? ≠ some '0') ∧
    (textLines (writeTextSequence [5, 30, 0])).length = [5, 30, 0].length :=
  ⟨by decide,
    ⟨by decide, ((writeTextSequence_layout [5, 30, 0]).2.2.2.2.1 30).2.2.1 (by decide)⟩,
    (writeTextSequence_layout [5, 30, 0]).2.2.1⟩

end Sheep

namespace Sheep

/-! ## Inputs outside the range of the index arithmetic -/

/-- C7 fails at the largest representable id: for the single edge
`(4294967295, 0)` with a 32-bit `vid_t` (and `(18446744073709551615, 0)` with a
64-bit one) no degree counter overflows, both ids occur as endpoints, yet
`max(X,Y) + 1` wraps to zero, the degree vector is not grown, the increment is
out of bounds and no sequence is returned; the claim asks for the sequence
`[0, 4294967295]`. -/
theorem fileSequence_template_largest_id_undefined :
    endpointCount 0 [(4294967295, 0)] = 1 ∧
    endpointCount 4294967295 [(4294967295, 0)] = 1 ∧
    scanEdges 32 [(4294967295, 0)] = none ∧
    fileSequence_template 32 (fun _ => [(4294967295, 0)]) [] = none ∧
    fileSequence_template 32 (fun _ => [(4294967295, 0)]) [] ≠ some [0, 4294967295] ∧
    fileSequence_template 64 (fun _ => [(18446744073709551615, 0)]) [] = none := by
  decide

/-- With a 32-bit `vid_t` and `max_vid = 2 ^ 31` the count of the sum-reduction
is negative and `mpiSequence` returns nothing, although `max_vid + 1` fits
`vid_t`. -/
theorem mpiSequence_sign_bit_count :
    intOfVid 2147483648 = -2147483648 ∧
    mpiSequence 32 32 [signBitGraph] 0 = none :=
  ⟨by decide, mpiSequence_negative_count 32 32 [signBitGraph] 0 (by decide)⟩

end Sheep
